import Mathlib

/-
Verification of the sudoku-solver repository (src/sudoku.c) against its
natural-language specification.

The C program is shallowly embedded below.  Conventions used throughout:

* Machine integers: the C program stores candidate bitmasks in `uint64_t`
  (`Bitmask`).  We model them as `Nat` together with the exact bit layout of
  the C code: `bit(i) = 2^(64-i)` (bit 1 is the most significant bit of the
  64-bit word, bit 64 the least significant), `~bit(i)` (a 64-bit complement)
  is `2^64 - 1 - 2^(64-i)`, and `&`/`|` are `Nat.land`/`Nat.lor`.  All masks
  occurring in the program are `< 2^64`, so `Nat` and `uint64_t` agree.
* The per-square candidate stack `candidate[]`/`topmask` is modelled as a
  `List Nat` whose head is `candidate[topmask]` (the top of the stack) and
  whose last element is `candidate[0]` (the base frame); the empty list
  corresponds to `topmask == -1`.  The C code never reads `candidate[t]` for
  `t > topmask`, so this captures exactly the observable state.
* The board array `Square board[MAX_N2+1][MAX_N2+1]` is modelled as a
  function `Nat → Nat → Square`; cells outside `[1, N2] × [1, N2]` keep their
  `init_board` state, exactly as in the C program.
* `int` counters and loop variables are `Nat` (they stay non-negative in the
  program); `map_alphabet_to_int` returns `Int` because it can return -1.
* Loops are turned into folds over the corresponding index lists, and the
  two unbounded loops (`preprocess_board`'s fixed-point loop and
  `find_solution`'s scan) take explicit fuel, returning `none` when the fuel
  runs out.  `assert` failures are modelled as explicit `abort` outcomes.
* Statistics counters (`Game_Stats`) only feed the final report; they are
  omitted except where a claim mentions them, in which case the relevant
  event is returned explicitly (e.g. which phases ran, how many
  `init_board` calls the loader made).
-/

namespace Sudoku

/-! ### Bitmasks (sudoku.c: `bit`, `init_bit_mask_array`) -/

/-- `bit(i)` from sudoku.c: a 64-bit word with a single 1-bit at position `i`,
position 1 being the leftmost (most significant) bit. -/
def bitm (i : Nat) : Nat := 2 ^ (64 - i)

/-- The 64-bit complement `~bit(i)` used in `update_neighbors`. -/
def notBit (i : Nat) : Nat := 2 ^ 64 - 1 - bitm i

/-! ### Alphabet maps (sudoku.c: `map_alphabet_to_int`, `map_int_to_alphabet`) -/

/-- `map_alphabet_to_int` from sudoku.c, the chain of character-range tests.
C compares `char` values; we compare the corresponding code points. -/
def map_alphabet_to_int (c : Char) : Int :=
  if '1' ≤ c ∧ c ≤ '9' then Int.ofNat (c.toNat - '1'.toNat + 1)
  else if c = '0' then 10
  else if 'A' ≤ c ∧ c ≤ 'Z' then Int.ofNat (c.toNat - 'A'.toNat + 11)
  else if 'a' ≤ c ∧ c ≤ 'z' then Int.ofNat (c.toNat - 'a'.toNat + 37)
  else if c = '#' then 63
  else if c = '$' then 64
  else -1

/-- The static table `mapToInt` of `map_int_to_alphabet` from sudoku.c. -/
def mapToIntTable : List Char :=
  ("-" ++ "1234567890" ++ "ABCDEFGHIJKLMNOPQRSTUVWXYZ"
       ++ "abcdefghijklmnopqrstuvwxyz" ++ "#$").toList

/-- `map_int_to_alphabet` from sudoku.c: index the table.  The C function
additionally asserts `0 ≤ i ≤ N2`; in-range indexing is total here. -/
def map_int_to_alphabet (i : Nat) : Char := mapToIntTable.getD i '-'

/-- Auxiliary, proved by finite check: the round trip on indices `1..36`
(the largest value range of any supported game, since `N ≤ 6`). -/
theorem map_round_trip_aux :
    ∀ i < 37, 1 ≤ i → map_alphabet_to_int (map_int_to_alphabet i) = Int.ofNat i := by
  decide

/-- c10: the alphabet maps are mutually inverse on the value range of any
game (`1 ≤ i ≤ N²` with `3 ≤ N ≤ 6`); index `0` maps to the blank marker
`'-'`, which is outside the value alphabet; and `map_alphabet_to_int`
returns `-1` exactly for characters outside the table
`1`-`9`, `0`, `A`-`Z`, `a`-`z`, `#`, `$`. -/
theorem c10_alphabet_maps (n i : Nat) (hn : 3 ≤ n ∧ n ≤ 6)
    (hi : 1 ≤ i ∧ i ≤ n * n) :
    map_alphabet_to_int (map_int_to_alphabet i) = Int.ofNat i ∧
    map_int_to_alphabet 0 = '-' ∧
    map_alphabet_to_int '-' = -1 ∧
    (∀ c : Char, map_alphabet_to_int c = -1 ↔
      ¬(('1' ≤ c ∧ c ≤ '9') ∨ c = '0' ∨ ('A' ≤ c ∧ c ≤ 'Z') ∨
        ('a' ≤ c ∧ c ≤ 'z') ∨ c = '#' ∨ c = '$')) := by
  refine ⟨?_, by decide, by decide, ?_⟩
  · have h37 : i < 37 := by nlinarith [hn.2, hi.2]
    exact map_round_trip_aux i h37 hi.1
  · intro c
    unfold map_alphabet_to_int
    split_ifs with h1 h2 h3 h4 h5 h6
    · exact iff_of_false not_false (not_not_intro (Or.inl h1))
    · exact iff_of_false not_false (not_not_intro (Or.inr (Or.inl h2)))
    · exact iff_of_false not_false
        (not_not_intro (Or.inr (Or.inr (Or.inl h3))))
    · exact iff_of_false not_false
        (not_not_intro (Or.inr (Or.inr (Or.inr (Or.inl h4)))))
    · exact iff_of_false not_false
        (not_not_intro (Or.inr (Or.inr (Or.inr (Or.inr (Or.inl h5))))))
    · exact iff_of_false not_false
        (not_not_intro (Or.inr (Or.inr (Or.inr (Or.inr (Or.inr h6))))))
    · refine iff_of_true rfl ?_
      simp only [not_or]
      exact ⟨h1, h2, h3, h4, h5, h6⟩

/-- Witness for c10 at `N = 3`, `i = 5`. -/
theorem c10_alphabet_maps_witness :
    (3 ≤ 3 ∧ 3 ≤ 6) ∧ (1 ≤ 5 ∧ 5 ≤ 3 * 3) ∧
    (map_alphabet_to_int (map_int_to_alphabet 5) = Int.ofNat 5 ∧
      map_int_to_alphabet 0 = '-' ∧
      map_alphabet_to_int '-' = -1 ∧
      (∀ c : Char, map_alphabet_to_int c = -1 ↔
        ¬(('1' ≤ c ∧ c ≤ '9') ∨ c = '0' ∨ ('A' ≤ c ∧ c ≤ 'Z') ∨
          ('a' ≤ c ∧ c ≤ 'z') ∨ c = '#' ∨ c = '$'))) :=
  ⟨by decide, by decide, c10_alphabet_maps 3 5 (by decide) (by decide)⟩

/-! ### Data model (sudoku.c: `Square`, `Game`, `init_board`, `find_sub_square`) -/

/-- A board square (sudoku.c `Square`).  The candidate stack
`candidate[]`/`topmask` is the list `cands` (head = top frame,
last = `candidate[0]`; `[]` = `topmask == -1`).  The immutable neighbor
lists are kept outside the structure (see `neighbors` below), since
`init_board` computes them purely from the coordinates. -/
structure Square where
  cur_value : Nat
  frozen : Bool
  cands : List Nat
  num_candidates : Nat
  deriving DecidableEq, Repr

/-- The state of `init_board` for a square: empty, unfrozen, no candidates. -/
def Square.blank : Square := ⟨0, false, [], 0⟩

/-- A game board (sudoku.c `Game`, minus the statistics): the subsquare side
`n` and the square array, modelled as a total function on coordinates.
Cells outside `[1, n²] × [1, n²]` stay in their `init_board` state. -/
structure Board where
  n : Nat
  sq : Nat → Nat → Square

/-- `N2`, the side of the board. -/
def Board.n2 (b : Board) : Nat := b.n * b.n

/-- Writing one square of the board array. -/
def Board.setSq (b : Board) (i j : Nat) (s : Square) : Board :=
  ⟨b.n, fun x y => if x = i ∧ y = j then s else b.sq x y⟩

/-- `init_board` (sudoku.c): every square reset to blank. -/
def initBoard (n : Nat) : Board := ⟨n, fun _ _ => Square.blank⟩

/-- The row (resp. column) coordinate of the upper-left element of the
subsquare containing coordinate `x`, i.e. `find_sub_square` (sudoku.c)
componentwise: `N * ((x - 1) / N) + 1`. -/
def subOrigin (n x : Nat) : Nat := n * ((x - 1) / n) + 1

/-- The list `1, 2, ..., m` (the index range of the C loops). -/
def oneTo (m : Nat) : List Nat := (List.range m).map (· + 1)

/-- Neighbors of `(i, j)` in the same column, in the order `init_board`
produces them (the `ii`-loop over rows, skipping `ii == i`). -/
def colNeighbors (n2 i j : Nat) : List (Nat × Nat) :=
  ((oneTo n2).filter (fun ii => ii ≠ i)).map (fun ii => (ii, j))

/-- Neighbors of `(i, j)` in the same row (the `jj`-loop, skipping
`jj == j`). -/
def rowNeighbors (n2 i j : Nat) : List (Nat × Nat) :=
  ((oneTo n2).filter (fun jj => jj ≠ j)).map (fun jj => (i, jj))

/-- Neighbors of `(i, j)` in the same subsquare, in `init_board` order: the
nested loops over the subsquare rows and columns, skipping the whole row
`ii == i` and the column `jj == j`. -/
def subNeighbors (n i j : Nat) : List (Nat × Nat) :=
  (((List.range n).map (subOrigin n i + ·)).filter (fun ii => ii ≠ i)).bind
    (fun ii =>
      (((List.range n).map (subOrigin n j + ·)).filter (fun jj => jj ≠ j)).map
        (fun jj => (ii, jj)))

/-- The full neighbor list of `(i, j)` as `init_board` computes it: column
neighbors, then row neighbors, then subsquare neighbors. -/
def neighbors (n i j : Nat) : List (Nat × Nat) :=
  colNeighbors (n * n) i j ++ rowNeighbors (n * n) i j ++ subNeighbors n i j

/-- The specification's neighbor relation: a distinct in-range cell sharing
the row, the column, or the subsquare. -/
def isNeighbor (n i j a b : Nat) : Prop :=
  1 ≤ a ∧ a ≤ n * n ∧ 1 ≤ b ∧ b ≤ n * n ∧ ¬(a = i ∧ b = j) ∧
    (a = i ∨ b = j ∨
      (subOrigin n a = subOrigin n i ∧ subOrigin n b = subOrigin n j))

theorem mem_oneTo {m a : Nat} : a ∈ oneTo m ↔ 1 ≤ a ∧ a ≤ m := by
  simp only [oneTo, List.mem_map, List.mem_range]
  constructor
  · rintro ⟨k, hk, rfl⟩; omega
  · rintro ⟨h1, h2⟩; exact ⟨a - 1, by omega, by omega⟩

theorem oneTo_nodup (m : Nat) : (oneTo m).Nodup :=
  (List.nodup_range m).map (fun _ _ h => by omega)

theorem subOrigin_le {n x : Nat} (hn : 1 ≤ n) (hx : 1 ≤ x) :
    subOrigin n x ≤ x := by
  have h1 := Nat.div_add_mod (x - 1) n
  unfold subOrigin
  omega

theorem lt_subOrigin_add {n x : Nat} (hn : 1 ≤ n) (hx : 1 ≤ x) :
    x < subOrigin n x + n := by
  have h1 := Nat.div_add_mod (x - 1) n
  have h2 : (x - 1) % n < n := Nat.mod_lt _ (by omega)
  unfold subOrigin
  omega

theorem subOrigin_pos {n x : Nat} : 1 ≤ subOrigin n x := by
  unfold subOrigin; omega

theorem subOrigin_add_le {n x : Nat} (hn : 1 ≤ n) (hx1 : 1 ≤ x)
    (hx2 : x ≤ n * n) : subOrigin n x + n ≤ n * n + 1 := by
  have h2 : (x - 1) / n < n := (Nat.div_lt_iff_lt_mul (by omega)).mpr (by omega)
  have h3 : n * ((x - 1) / n) + n ≤ n * n := by
    calc n * ((x - 1) / n) + n = n * ((x - 1) / n + 1) := by ring
    _ ≤ n * n := Nat.mul_le_mul_left n (by omega)
  unfold subOrigin
  omega

/-- Coordinate `a ≥ 1` lies in the subsquare row range of `x` iff the two
coordinates have the same subsquare origin. -/
theorem subOrigin_eq_iff {n x a : Nat} (hn : 1 ≤ n) (hx : 1 ≤ x)
    (ha : 1 ≤ a) :
    subOrigin n a = subOrigin n x ↔
      subOrigin n x ≤ a ∧ a < subOrigin n x + n := by
  constructor
  · intro h
    exact ⟨h ▸ subOrigin_le hn ha, h ▸ lt_subOrigin_add hn ha⟩
  · rintro ⟨h1, h2⟩
    have hdiv : (a - 1) / n = (x - 1) / n := by
      apply Nat.div_eq_of_lt_le
      · have h3 : (x - 1) / n * n = n * ((x - 1) / n) := Nat.mul_comm _ _
        unfold subOrigin at h1; omega
      · have h3 : ((x - 1) / n + 1) * n = n * ((x - 1) / n) + n := by ring
        unfold subOrigin at h2; omega
    unfold subOrigin
    rw [hdiv]

/-- Membership in the subsquare coordinate range list. -/
theorem mem_subRange {n x a : Nat} (hn : 1 ≤ n) (hx : 1 ≤ x) :
    a ∈ (List.range n).map (subOrigin n x + ·) ↔
      (1 ≤ a ∧ subOrigin n a = subOrigin n x) := by
  simp only [List.mem_map, List.mem_range]
  constructor
  · rintro ⟨k, hk, rfl⟩
    have ha : 1 ≤ subOrigin n x + k := by
      have := @subOrigin_pos n x; omega
    refine ⟨ha, (subOrigin_eq_iff hn hx ha).mpr ⟨by omega, by omega⟩⟩
  · rintro ⟨ha, heq⟩
    rcases (subOrigin_eq_iff hn hx ha).mp heq with ⟨h1, h2⟩
    exact ⟨a - subOrigin n x, by omega, by omega⟩

theorem mem_colNeighbors {n2 i j a b : Nat} :
    (a, b) ∈ colNeighbors n2 i j ↔ (1 ≤ a ∧ a ≤ n2 ∧ a ≠ i ∧ b = j) := by
  simp only [colNeighbors, List.mem_map, List.mem_filter, mem_oneTo,
    decide_eq_true_eq, Prod.mk.injEq]
  constructor
  · rintro ⟨ii, ⟨⟨h1, h2⟩, h3⟩, rfl, rfl⟩; exact ⟨h1, h2, h3, rfl⟩
  · rintro ⟨h1, h2, h3, rfl⟩; exact ⟨a, ⟨⟨h1, h2⟩, h3⟩, rfl, rfl⟩

theorem mem_rowNeighbors {n2 i j a b : Nat} :
    (a, b) ∈ rowNeighbors n2 i j ↔ (1 ≤ b ∧ b ≤ n2 ∧ b ≠ j ∧ a = i) := by
  simp only [rowNeighbors, List.mem_map, List.mem_filter, mem_oneTo,
    decide_eq_true_eq, Prod.mk.injEq]
  constructor
  · rintro ⟨jj, ⟨⟨h1, h2⟩, h3⟩, rfl, rfl⟩; exact ⟨h1, h2, h3, rfl⟩
  · rintro ⟨h1, h2, h3, rfl⟩; exact ⟨b, ⟨⟨h1, h2⟩, h3⟩, rfl, rfl⟩

theorem mem_subNeighbors {n i j a b : Nat} (hn : 1 ≤ n) (hi : 1 ≤ i)
    (hj : 1 ≤ j) :
    (a, b) ∈ subNeighbors n i j ↔
      (1 ≤ a ∧ subOrigin n a = subOrigin n i ∧
        1 ≤ b ∧ subOrigin n b = subOrigin n j ∧ a ≠ i ∧ b ≠ j) := by
  constructor
  · intro h
    rw [subNeighbors, List.mem_bind] at h
    rcases h with ⟨ii, hii, hmem⟩
    rw [List.mem_filter] at hii
    rw [List.mem_map] at hmem
    rcases hmem with ⟨jj, hjj, heq⟩
    rw [List.mem_filter] at hjj
    injection heq with e1 e2
    subst e1; subst e2
    rcases (mem_subRange hn hi).mp hii.1 with ⟨ha1, ha2⟩
    rcases (mem_subRange hn hj).mp hjj.1 with ⟨hb1, hb2⟩
    exact ⟨ha1, ha2, hb1, hb2, of_decide_eq_true hii.2,
      of_decide_eq_true hjj.2⟩
  · rintro ⟨ha1, ha2, hb1, hb2, h3, h4⟩
    rw [subNeighbors, List.mem_bind]
    refine ⟨a, List.mem_filter.mpr
      ⟨(mem_subRange hn hi).mpr ⟨ha1, ha2⟩, decide_eq_true h3⟩, ?_⟩
    rw [List.mem_map]
    exact ⟨b, List.mem_filter.mpr
      ⟨(mem_subRange hn hj).mpr ⟨hb1, hb2⟩, decide_eq_true h4⟩, rfl⟩

/-- The neighbor-list characterization: `(a, b)` is on the `init_board`
neighbor list of `(i, j)` iff it is a distinct in-range cell sharing the
row, the column, or the subsquare of `(i, j)`. -/
theorem mem_neighbors_iff {n i j a b : Nat} (hn : 1 ≤ n)
    (hi1 : 1 ≤ i) (hi2 : i ≤ n * n) (hj1 : 1 ≤ j) (hj2 : j ≤ n * n) :
    (a, b) ∈ neighbors n i j ↔ isNeighbor n i j a b := by
  unfold neighbors isNeighbor
  simp only [List.mem_append, mem_colNeighbors, mem_rowNeighbors,
    mem_subNeighbors hn hi1 hj1]
  constructor
  · rintro ((⟨h1, h2, h3, rfl⟩ | ⟨h1, h2, h3, rfl⟩) | ⟨ha1, ha2, hb1, hb2, h3, h4⟩)
    · exact ⟨h1, h2, hj1, hj2, fun h => h3 h.1, Or.inr (Or.inl rfl)⟩
    · exact ⟨hi1, hi2, h1, h2, fun h => h3 h.2, Or.inl rfl⟩
    · have haU : a ≤ n * n := by
        rcases (subOrigin_eq_iff hn hi1 ha1).mp ha2 with ⟨_, hh2⟩
        have := subOrigin_add_le hn hi1 hi2
        omega
      have hbU : b ≤ n * n := by
        rcases (subOrigin_eq_iff hn hj1 hb1).mp hb2 with ⟨_, hh2⟩
        have := subOrigin_add_le hn hj1 hj2
        omega
      exact ⟨ha1, haU, hb1, hbU, fun h => h3 h.1,
        Or.inr (Or.inr ⟨ha2, hb2⟩)⟩
  · rintro ⟨h1, h2, h3, h4, h5, h6 | h6 | ⟨h6, h7⟩⟩
    · subst h6
      exact Or.inl (Or.inr ⟨h3, h4, fun hbj => h5 ⟨rfl, hbj⟩, rfl⟩)
    · subst h6
      exact Or.inl (Or.inl ⟨h1, h2, fun hai => h5 ⟨hai, rfl⟩, rfl⟩)
    · by_cases hai : a = i
      · subst hai
        by_cases hbj : b = j
        · exact absurd ⟨rfl, hbj⟩ h5
        · exact Or.inl (Or.inr ⟨h3, h4, hbj, rfl⟩)
      · by_cases hbj : b = j
        · subst hbj
          exact Or.inl (Or.inl ⟨h1, h2, hai, rfl⟩)
        · exact Or.inr ⟨h1, h6, h3, h7, hai, hbj⟩

theorem sum_map_const {α : Type} (l : List α) (c : Nat) :
    (l.map (fun _ => c)).sum = l.length * c := by
  induction l with
  | nil => simp
  | cons a t ih => simp [ih, Nat.succ_mul, Nat.add_comm]

theorem length_filter_ne_of_nodup {l : List Nat} {i : Nat} (hn : l.Nodup)
    (hm : i ∈ l) : (l.filter (fun x => x ≠ i)).length = l.length - 1 := by
  induction l with
  | nil => cases hm
  | cons a t ih =>
    by_cases hai : a = i
    · subst hai
      have hnot : a ∉ t := (List.nodup_cons.mp hn).1
      have hft : t.filter (fun x => x ≠ a) = t :=
        List.filter_eq_self.mpr
          (fun x hx => decide_eq_true (fun he => hnot (he ▸ hx)))
      rw [List.filter_cons, if_neg (by simp), hft, List.length_cons]
      omega
    · have hm' : i ∈ t := by
        rcases List.mem_cons.mp hm with h | h
        · exact absurd h.symm hai
        · exact h
      have ht : 1 ≤ t.length := List.length_pos.mpr (List.ne_nil_of_mem hm')
      have hrec := ih (List.nodup_cons.mp hn).2 hm'
      simp only [List.filter_cons, decide_eq_true hai, if_true,
        List.length_cons, hrec]
      omega

theorem subRange_nodup (n x : Nat) :
    ((List.range n).map (subOrigin n x + ·)).Nodup :=
  (List.nodup_range n).map (fun _ _ h => by omega)

theorem colNeighbors_length {n2 i j : Nat} (hi1 : 1 ≤ i) (hi2 : i ≤ n2) :
    (colNeighbors n2 i j).length = n2 - 1 := by
  unfold colNeighbors
  rw [List.length_map, length_filter_ne_of_nodup (oneTo_nodup n2)
    (mem_oneTo.mpr ⟨hi1, hi2⟩)]
  simp [oneTo]

theorem rowNeighbors_length {n2 i j : Nat} (hj1 : 1 ≤ j) (hj2 : j ≤ n2) :
    (rowNeighbors n2 i j).length = n2 - 1 := by
  unfold rowNeighbors
  rw [List.length_map, length_filter_ne_of_nodup (oneTo_nodup n2)
    (mem_oneTo.mpr ⟨hj1, hj2⟩)]
  simp [oneTo]

theorem subNeighbors_length {n i j : Nat} (hn : 1 ≤ n) (hi : 1 ≤ i)
    (hj : 1 ≤ j) : (subNeighbors n i j).length = (n - 1) * (n - 1) := by
  unfold subNeighbors
  rw [List.length_bind]
  simp only [Function.comp_def]
  have hlen : ∀ ii ∈ (((List.range n).map (subOrigin n i + ·)).filter
      (fun ii => ii ≠ i)),
      ((((List.range n).map (subOrigin n j + ·)).filter
        (fun jj => jj ≠ j)).map (fun jj => (ii, jj))).length = n - 1 := by
    intro ii _
    rw [List.length_map, length_filter_ne_of_nodup (subRange_nodup n j)
      ((mem_subRange hn hj).mpr ⟨hj, rfl⟩)]
    simp
  rw [List.map_congr_left hlen, sum_map_const,
    length_filter_ne_of_nodup (subRange_nodup n i)
      ((mem_subRange hn hi).mpr ⟨hi, rfl⟩)]
  simp

theorem colNeighbors_nodup (n2 i j : Nat) : (colNeighbors n2 i j).Nodup :=
  List.Nodup.map (fun _ _ h => congrArg Prod.fst h)
    ((oneTo_nodup n2).filter _)

theorem rowNeighbors_nodup (n2 i j : Nat) : (rowNeighbors n2 i j).Nodup :=
  List.Nodup.map (fun _ _ h => congrArg Prod.snd h)
    ((oneTo_nodup n2).filter _)

theorem subNeighbors_nodup (n i j : Nat) : (subNeighbors n i j).Nodup := by
  unfold subNeighbors
  rw [List.nodup_bind]
  constructor
  · intro ii _
    exact List.Nodup.map (fun _ _ h => congrArg Prod.snd h)
      ((subRange_nodup n j).filter _)
  · have hsub : ((List.range n).map (subOrigin n i + ·)).filter
        (fun ii => ii ≠ i) |>.Nodup := (subRange_nodup n i).filter _
    refine List.Pairwise.imp ?_ hsub
    intro x y hxy
    intro p hp hq
    rcases List.mem_map.mp hp with ⟨_, _, rfl⟩
    rcases List.mem_map.mp hq with ⟨_, _, he⟩
    exact hxy (congrArg Prod.fst he).symm

theorem neighbors_nodup {n i j : Nat} (hn : 1 ≤ n) (hi1 : 1 ≤ i)
    (hj1 : 1 ≤ j) : (neighbors n i j).Nodup := by
  unfold neighbors
  refine List.Nodup.append (List.Nodup.append (colNeighbors_nodup _ i j)
    (rowNeighbors_nodup _ i j) ?_) (subNeighbors_nodup n i j) ?_
  · intro p hp hq
    obtain ⟨a, b⟩ := p
    rcases mem_colNeighbors.mp hp with ⟨_, _, hne, _⟩
    rcases mem_rowNeighbors.mp hq with ⟨_, _, _, he⟩
    exact hne he
  · intro p hp hq
    obtain ⟨a, b⟩ := p
    rcases mem_subNeighbors hn hi1 hj1 |>.mp hq with ⟨_, _, _, _, hna, hnb⟩
    rcases List.mem_append.mp hp with hc | hr
    · exact hnb (mem_colNeighbors.mp hc).2.2.2
    · exact hna (mem_rowNeighbors.mp hr).2.2.2

/-- c7: after `init_board(N)`, each in-range cell's neighbor list contains
exactly the distinct in-range cells sharing its row, column or subsquare
(self excluded, no duplicates), hence `3·N² − 2·N − 1` entries; the
subsquare origin is `(N·⌊(row−1)/N⌋+1, N·⌊(col−1)/N⌋+1)`; and the relation
is symmetric. -/
theorem c7_neighbor_model (n i j : Nat) (hn : 1 ≤ n)
    (hi1 : 1 ≤ i) (hi2 : i ≤ n * n) (hj1 : 1 ≤ j) (hj2 : j ≤ n * n) :
    (∀ a b, (a, b) ∈ neighbors n i j ↔ isNeighbor n i j a b) ∧
    (neighbors n i j).Nodup ∧
    (neighbors n i j).length = 3 * (n * n) - 2 * n - 1 ∧
    subOrigin n i = n * ((i - 1) / n) + 1 ∧
    (∀ a b, (a, b) ∈ neighbors n i j → (i, j) ∈ neighbors n a b) := by
  refine ⟨fun a b => mem_neighbors_iff hn hi1 hi2 hj1 hj2,
    neighbors_nodup hn hi1 hj1, ?_, rfl, ?_⟩
  · unfold neighbors
    rw [List.length_append, List.length_append,
      colNeighbors_length hi1 hi2, rowNeighbors_length hj1 hj2,
      subNeighbors_length hn hi1 hj1]
    obtain ⟨k, rfl⟩ : ∃ k, n = k + 1 := ⟨n - 1, by omega⟩
    have h1 : (k + 1) * (k + 1) = k * k + 2 * k + 1 := by ring
    have h2 : (k + 1 - 1) * (k + 1 - 1) = k * k := by simp
    omega
  · intro a b h
    rcases (mem_neighbors_iff hn hi1 hi2 hj1 hj2).mp h with
      ⟨ha1, ha2, hb1, hb2, hne, hrel⟩
    refine (mem_neighbors_iff hn ha1 ha2 hb1 hb2).mpr
      ⟨hi1, hi2, hj1, hj2, ?_, ?_⟩
    · rintro ⟨rfl, rfl⟩; exact hne ⟨rfl, rfl⟩
    · rcases hrel with h | h | ⟨h1, h2⟩
      · exact Or.inl h.symm
      · exact Or.inr (Or.inl h.symm)
      · exact Or.inr (Or.inr ⟨h1.symm, h2.symm⟩)

/-- Witness for c7 at `N = 3`, cell `(2, 5)`. -/
theorem c7_neighbor_model_witness :
    (1 ≤ 3 ∧ 1 ≤ 2 ∧ 2 ≤ 3 * 3 ∧ 1 ≤ 5 ∧ 5 ≤ 3 * 3) ∧
    ((∀ a b, (a, b) ∈ neighbors 3 2 5 ↔ isNeighbor 3 2 5 a b) ∧
      (neighbors 3 2 5).Nodup ∧
      (neighbors 3 2 5).length = 3 * (3 * 3) - 2 * 3 - 1 ∧
      subOrigin 3 2 = 3 * ((2 - 1) / 3) + 1 ∧
      (∀ a b, (a, b) ∈ neighbors 3 2 5 → (2, 5) ∈ neighbors 3 a b)) :=
  ⟨by decide, c7_neighbor_model 3 2 5 (by decide) (by decide) (by decide)
    (by decide) (by decide)⟩

/-! ### Candidate engine (sudoku.c: `find_candidate`, `find_candidates`,
`get_first_candidate`, `freeze_one`, `update_neighbors`) -/

/-- The row-major list of all in-range cells, the traversal order of the
`i`/`j` double loops of sudoku.c. -/
def cellList (n2 : Nat) : List (Nat × Nat) :=
  (oneTo n2).bind (fun i => (oneTo n2).map (fun j => (i, j)))

/-- How many neighbors of `(i, j)` currently hold value `v` — the `seen[v]`
counter built by `find_candidate`. -/
def seenCount (b : Board) (i j v : Nat) : Nat :=
  ((neighbors b.n i j).filter
    (fun p => (b.sq p.1 p.2).cur_value = v)).length

/-- The candidate bitmask `find_candidate` builds: one bit per value
`1..N2` that no neighbor currently holds. -/
def candMaskOf (b : Board) (i j : Nat) : Nat :=
  (oneTo b.n2).foldl
    (fun m k => if seenCount b i j k = 0 then Nat.lor m (bitm k) else m) 0

/-- The number of 1-bits `find_candidate` counts into `num_candidates`. -/
def numCandsOf (b : Board) (i j : Nat) : Nat :=
  ((oneTo b.n2).filter (fun k => seenCount b i j k = 0)).length

/-- `find_candidate` (sudoku.c): recompute the base candidate frame of one
square.  Returns the updated board and the C function's boolean result
(`true` iff the square is frozen or has candidates). -/
def findCandidateAt (b : Board) (i j : Nat) : Board × Bool :=
  let p := b.sq i j
  if p.frozen then (b, true)
  else
    let m := candMaskOf b i j
    (b.setSq i j { p with cands := [m], num_candidates := numCandsOf b i j },
      m != 0)

/-- One step of the `find_candidates` double loop. -/
def fcStep (st : Board × Bool) (ij : Nat × Nat) : Board × Bool :=
  let r := findCandidateAt st.1 ij.1 ij.2
  (r.1, st.2 && r.2)

/-- `find_candidates` (sudoku.c): recompute base candidates of every square,
and-ing the per-square results into `retval`. -/
def findCandidates (b : Board) : Board × Bool :=
  (cellList b.n2).foldl fcStep (b, true)

/-- `get_first_candidate` (sudoku.c): position of the first 1-bit of `m`
among `1..n2`, or `0` if there is none. -/
def getFirstCandidate (n2 m : Nat) : Nat :=
  ((oneTo n2).find? (fun k => Nat.land m (bitm k) != 0)).getD 0

/-- `freeze_one` (sudoku.c): place `piece` on `(i, j)` and freeze it. -/
def freezeOne (b : Board) (i j piece : Nat) : Board :=
  b.setSq i j ⟨piece, true, [], 0⟩

/-- `update_neighbors` (sudoku.c): for every unfrozen neighbor of
`(row, col)`, either pop the candidate stack (`make_avail = true`) or push
a copy of the top frame with `piece`'s bit cleared (`make_avail = false`).
The C function asserts `!board[row][col].frozen` and, on pop, that the
stack stays nonempty; those preconditions hold at every call site modelled
below. -/
def updateNeighbors (b : Board) (row col piece : Nat) (makeAvail : Bool) :
    Board :=
  (neighbors b.n row col).foldl
    (fun bb p =>
      let q := bb.sq p.1 p.2
      if q.frozen then bb
      else if makeAvail then
        bb.setSq p.1 p.2 { q with cands := q.cands.tail }
      else
        bb.setSq p.1 p.2
          { q with cands := Nat.land (q.cands.headD 0) (notBit piece) ::
              q.cands })
    b

/-! ### Preprocessing (sudoku.c: `check_for_only_one_candidate`,
`try_row_optimization`, `try_column_optimization`,
`try_subsquare_optimization`, `preprocess_board`) -/

/-- `check_for_only_one_candidate` (sudoku.c): scan all squares in row-major
order and freeze every unfrozen square whose `num_candidates` is 1 to its
first candidate.  Note this freezes each such square within one pass,
without recomputing candidates in between. -/
def checkOnlyOne (b : Board) : Board × Bool :=
  (cellList b.n2).foldl
    (fun st ij =>
      let p := st.1.sq ij.1 ij.2
      if !p.frozen && p.num_candidates == 1 then
        (freezeOne st.1 ij.1 ij.2
          (getFirstCandidate st.1.n2 (p.cands.getLastD 0)), true)
      else st)
    (b, false)

/-- The unfrozen cells of row `i` whose base frame `candidate[0]` contains
value `k` — the cells counted into `seen[k]`/`index[k]` by
`try_row_optimization` (its `index[k]` is the last element). -/
def rowCandCells (b : Board) (i k : Nat) : List Nat :=
  (oneTo b.n2).filter (fun j =>
    !(b.sq i j).frozen &&
      Nat.land ((b.sq i j).cands.getLastD 0) (bitm k) != 0)

/-- `try_row_optimization` (sudoku.c), recursing over the remaining rows:
in the first row having a value `k` with `seen[k] == 1`, freeze that value
(the first such `k`) onto its unique cell and stop. -/
def tryRowOptFrom (b : Board) : List Nat → Board × Bool
  | [] => (b, false)
  | i :: rest =>
    match (oneTo b.n2).find? (fun k => (rowCandCells b i k).length == 1) with
    | some k => (freezeOne b i ((rowCandCells b i k).getLastD 0) k, true)
    | none => tryRowOptFrom b rest

def tryRowOpt (b : Board) : Board × Bool := tryRowOptFrom b (oneTo b.n2)

/-- The column counterpart of `rowCandCells` (`try_column_optimization`
scans `board[j][i]`, i.e. column `i`). -/
def colCandCells (b : Board) (i k : Nat) : List Nat :=
  (oneTo b.n2).filter (fun j =>
    !(b.sq j i).frozen &&
      Nat.land ((b.sq j i).cands.getLastD 0) (bitm k) != 0)

/-- `try_column_optimization` (sudoku.c). -/
def tryColOptFrom (b : Board) : List Nat → Board × Bool
  | [] => (b, false)
  | i :: rest =>
    match (oneTo b.n2).find? (fun k => (colCandCells b i k).length == 1) with
    | some k => (freezeOne b ((colCandCells b i k).getLastD 0) i k, true)
    | none => tryColOptFrom b rest

def tryColOpt (b : Board) : Board × Bool := tryColOptFrom b (oneTo b.n2)

/-- The subsquare origins `(1,1), (1,1+N), ...` in the traversal order of
the `i += N` / `j += N` loops. -/
def subOrigins (n : Nat) : List (Nat × Nat) :=
  (List.range n).bind
    (fun a => (List.range n).map (fun c => (1 + n * a, 1 + n * c)))

/-- The cells of the subsquare with origin `(sr, sc)`, in row-major scan
order. -/
def subCells (n sr sc : Nat) : List (Nat × Nat) :=
  (List.range n).bind
    (fun ii => (List.range n).map (fun jj => (sr + ii, sc + jj)))

/-- The unfrozen cells of the subsquare at `(sr, sc)` whose base frame
contains value `k` (`try_subsquare_optimization`'s `seen`/`row_index`/
`col_index`; its index pair is the last element). -/
def subCandCells (b : Board) (sr sc k : Nat) : List (Nat × Nat) :=
  (subCells b.n sr sc).filter (fun p =>
    !(b.sq p.1 p.2).frozen &&
      Nat.land ((b.sq p.1 p.2).cands.getLastD 0) (bitm k) != 0)

/-- `try_subsquare_optimization` (sudoku.c). -/
def trySubOptFrom (b : Board) : List (Nat × Nat) → Board × Bool
  | [] => (b, false)
  | sq0 :: rest =>
    match (oneTo b.n2).find?
        (fun k => (subCandCells b sq0.1 sq0.2 k).length == 1) with
    | some k =>
      let p := (subCandCells b sq0.1 sq0.2 k).getLastD (0, 0)
      (freezeOne b p.1 p.2 k, true)
    | none => trySubOptFrom b rest

def trySubOpt (b : Board) : Board × Bool := trySubOptFrom b (subOrigins b.n)

/-- `preprocess_board` (sudoku.c): the fixed-point loop, with explicit
fuel for the unbounded `while`.  Returns the final board and the C
function's boolean result (`false` = some empty square has no candidates,
reported as unsolvable).  The statistics bookkeeping (`first_time`,
`compute_candidate_stats`) does not affect the board or the result and is
omitted. -/
def preprocessLoop : Nat → Board → Option (Board × Bool)
  | 0, _ => none
  | fuel + 1, b =>
    let r := findCandidates b
    if !r.2 then some (r.1, false)
    else
      let c1 := checkOnlyOne r.1
      if c1.2 then preprocessLoop fuel c1.1
      else
        let c2 := tryRowOpt c1.1
        if c2.2 then preprocessLoop fuel c2.1
        else
          let c3 := tryColOpt c2.1
          if c3.2 then preprocessLoop fuel c3.1
          else
            let c4 := trySubOpt c3.1
            if c4.2 then preprocessLoop fuel c4.1
            else some (c4.1, true)

/-! ### Backtracking search (sudoku.c: `find_solution`) -/

/-- The state of `find_solution`'s double loop: the board, the scan cursor
`(i, j)`, the move stack (head = top), and `piece_to_place`. -/
structure SState where
  b : Board
  i : Nat
  j : Nat
  stack : List (Nat × Nat)
  piece : Nat

/-- The outcome of the search: normal termination with the final board, or
an `assert` failure (stack underflow at a dead end with an empty move
stack, or the stack-bound assert on push). -/
inductive SearchOut where
  | done (b : Board)
  | abort

/-- The `k`-loop of `find_solution`: the first candidate `k` with
`piece < k ≤ N2` whose bit is set in the top frame of `(i, j)`. -/
def findPiece (b : Board) (i j piece : Nat) : Option Nat :=
  ((oneTo b.n2).filter (fun k => piece < k)).find?
    (fun k => Nat.land ((b.sq i j).cands.headD 0) (bitm k) != 0)

/-- One iteration of `find_solution`'s inner loop body (including the
loop-control increments). -/
def searchStep (s : SState) : SState ⊕ SearchOut :=
  if s.i > s.b.n2 then Sum.inr (SearchOut.done s.b)
  else if s.j > s.b.n2 then Sum.inl { s with i := s.i + 1, j := 1 }
  else
    let p := s.b.sq s.i s.j
    if p.frozen then Sum.inl { s with j := s.j + 1 }
    else
      match findPiece s.b s.i s.j s.piece with
      | some k =>
        if s.stack.length ≥ s.b.n2 * s.b.n2 then Sum.inr SearchOut.abort
        else
          let b1 := s.b.setSq s.i s.j { p with cur_value := k }
          let b2 := updateNeighbors b1 s.i s.j k false
          Sum.inl ⟨b2, s.i, s.j + 1, (s.i, s.j) :: s.stack, 0⟩
      | none =>
        match s.stack with
        | [] => Sum.inr SearchOut.abort
        | (i', j') :: rest =>
          let v := (s.b.sq i' j').cur_value
          let b1 := updateNeighbors s.b i' j' v true
          let b2 := b1.setSq i' j' { b1.sq i' j' with cur_value := 0 }
          Sum.inl ⟨b2, i', j', rest, v⟩

/-- The iterated search loop, with fuel for the unbounded scan. -/
def runSearch : Nat → SState → Option SearchOut
  | 0, _ => none
  | fuel + 1, s =>
    match searchStep s with
    | Sum.inl s' => runSearch fuel s'
    | Sum.inr out => some out

/-- `find_solution` (sudoku.c), from the initial cursor `(1, 1)` with an
empty move stack and `piece_to_place = 0`. -/
def findSolution (fuel : Nat) (b : Board) : Option SearchOut :=
  runSearch fuel ⟨b, 1, 1, [], 0⟩

/-! ### Verifier (sudoku.c: `verify_solution`,
`verify_solution_to_our_problem`) -/

/-- `used[k]` for a unit: how many of the given cells hold value `k`. -/
def usedCount (b : Board) (cells : List (Nat × Nat)) (k : Nat) : Nat :=
  (cells.filter (fun p => (b.sq p.1 p.2).cur_value = k)).length

/-- One unit check of `verify_solution`: no value more than once, and
(in full mode) every value exactly once. -/
def unitOk (b : Board) (cells : List (Nat × Nat)) (full : Bool) : Bool :=
  (oneTo b.n2).all (fun k =>
    usedCount b cells k ≤ 1 && (!full || usedCount b cells k == 1))

def rowCells (n2 i : Nat) : List (Nat × Nat) :=
  (oneTo n2).map (fun j => (i, j))

def colCells (n2 i : Nat) : List (Nat × Nat) :=
  (oneTo n2).map (fun j => (j, i))

/-- `verify_solution` (sudoku.c): all rows, all columns, all subsquares. -/
def verifySolution (b : Board) (full : Bool) : Bool :=
  ((oneTo b.n2).all (fun i => unitOk b (rowCells b.n2 i) full)) &&
  ((oneTo b.n2).all (fun i => unitOk b (colCells b.n2 i) full)) &&
  ((subOrigins b.n).all (fun p => unitOk b (subCells b.n p.1 p.2) full))

/-- `verify_solution_to_our_problem` (sudoku.c): every nonzero value of the
saved board agrees with the current board (loops run from index 0). -/
def verifyToOurProblem (saved b : Board) : Bool :=
  ((List.range (saved.n2 + 1)).bind
    (fun i => (List.range (saved.n2 + 1)).map (fun j => (i, j)))).all
    (fun p => (saved.sq p.1 p.2).cur_value == 0 ||
      (saved.sq p.1 p.2).cur_value == (b.sq p.1 p.2).cur_value)

/-! ### Boards under test -/

/-- The board state produced by `load_file` for a given clue assignment
(0 = blank): clue cells get their value and are frozen, all other cells are
blank and unfrozen, every candidate stack is empty (`topmask = -1`). -/
def boardOfClues (n : Nat) (clue : Nat → Nat → Nat) : Board :=
  ⟨n, fun i j =>
    if 1 ≤ i ∧ i ≤ n * n ∧ 1 ≤ j ∧ j ≤ n * n ∧ clue i j ≠ 0
    then ⟨clue i j, true, [], 0⟩ else ⟨0, false, [], 0⟩⟩

/-- A 77-clue 9×9 puzzle (0 = blank).  The four blanks are `(1,1)`, `(1,2)`,
`(4,3)` and `(7,3)`; each of them has the single base candidate 1, so one
pass of `check_for_only_one_candidate` freezes all four to 1 — putting 1
twice into row 1, twice into column 3 and twice into the top-left
subsquare — even though the clues themselves are conflict-free. -/
def cexRows : List (List Nat) :=
  [[0, 0, 3, 4, 5, 6, 7, 8, 9],
   [4, 5, 6, 7, 8, 9, 1, 2, 3],
   [7, 8, 9, 1, 2, 3, 4, 5, 6],
   [2, 3, 0, 5, 4, 7, 6, 9, 8],
   [5, 4, 7, 6, 9, 8, 2, 3, 1],
   [6, 9, 8, 2, 3, 1, 5, 4, 7],
   [3, 2, 0, 8, 6, 4, 9, 7, 5],
   [8, 6, 4, 9, 7, 5, 3, 1, 2],
   [9, 7, 5, 3, 1, 2, 8, 6, 4]]

def cexClue (i j : Nat) : Nat := (cexRows.getD (i - 1) []).getD (j - 1) 0

/-- The counterexample puzzle as loaded. -/
def cexBoard : Board := boardOfClues 3 cexClue

/-- The number of frozen squares on the board. -/
def frozenCount (b : Board) : Nat :=
  ((cellList b.n2).filter (fun p => (b.sq p.1 p.2).frozen)).length

/-- The board after `preprocess_board` on the counterexample puzzle. -/
def cexPre : Board := ((preprocessLoop 20 cexBoard).getD (cexBoard, false)).1

/-- Whether a search outcome is normal termination. -/
def isDoneOut : Option SearchOut → Bool
  | some (SearchOut.done _) => true
  | _ => false

/-- The board after `find_solution` on the preprocessed counterexample. -/
def cexFinal : Board :=
  match findSolution 200 cexPre with
  | some (SearchOut.done b) => b
  | _ => cexPre

set_option maxRecDepth 2000000 in
/-- c3: one single call of `check_for_only_one_candidate` on the
counterexample puzzle (right after the first `find_candidates`) freezes
four squares — from 77 frozen squares to 81 — with no recomputation of base
candidates in between (`check_for_only_one_candidate` performs none), so
preprocessing does not recompute candidates after every single freeze.
Squares `(1,1)` and `(1,2)` are both frozen to value 1 by that one pass,
although they are neighbors. -/
theorem c3_single_candidate_rule_batches_freezes :
    frozenCount (findCandidates cexBoard).1 = 77 ∧
    (checkOnlyOne (findCandidates cexBoard).1).2 = true ∧
    frozenCount (checkOnlyOne (findCandidates cexBoard).1).1 = 81 ∧
    ((checkOnlyOne (findCandidates cexBoard).1).1.sq 1 1).cur_value = 1 ∧
    ((checkOnlyOne (findCandidates cexBoard).1).1.sq 1 2).cur_value = 1 := by
  exact ⟨by decide, by decide, by decide, by decide, by decide⟩

set_option maxRecDepth 2000000 in
/-- c1: on the counterexample puzzle the clues pass the partial-uniqueness
check, preprocessing reports solvable, the backtracking search terminates
normally, the final board still matches the original clues — and yet full
verification fails (row 1 holds value 1 twice, at `(1,1)` and `(1,2)`):
the program prints `INVALID SOLUTION`. -/
theorem c1_search_result_fails_full_verification :
    verifySolution cexBoard false = true ∧
    (preprocessLoop 20 cexBoard).map Prod.snd = some true ∧
    isDoneOut (findSolution 200 cexPre) = true ∧
    verifyToOurProblem cexBoard cexFinal = true ∧
    (cexFinal.sq 1 1).cur_value = 1 ∧
    (cexFinal.sq 1 2).cur_value = 1 ∧
    verifySolution cexFinal true = false := by
  exact ⟨by decide, by decide, by decide, by decide, by decide, by decide,
    by decide⟩

/-! ### The main pipeline (sudoku.c: `main`) -/

/-- The observable outcome of a run of `main` on a loaded board. -/
inductive Outcome where
  | invalidSetup
  | noSolution
  | aborted
  | solved (b : Board)

/-- The result of a run, together with which phases were entered at all:
`preprocessRan` (`preprocess_board` was called) and `searchRan`
(`find_solution` was called). -/
structure RunResult where
  outcome : Outcome
  preprocessRan : Bool
  searchRan : Bool

/-- `main` (sudoku.c) after loading: verify the setup, preprocess, search.
`none` means the fuel for one of the two unbounded loops ran out. -/
def runMain (fuel : Nat) (b0 : Board) : Option RunResult :=
  if verifySolution b0 false = false then
    some ⟨Outcome.invalidSetup, false, false⟩
  else
    match preprocessLoop fuel b0 with
    | none => none
    | some (_, false) => some ⟨Outcome.noSolution, true, false⟩
    | some (b1, true) =>
      match findSolution fuel b1 with
      | none => none
      | some SearchOut.abort => some ⟨Outcome.aborted, true, true⟩
      | some (SearchOut.done b2) => some ⟨Outcome.solved b2, true, true⟩

/-- c6: if the loaded clues fail the partial-uniqueness check, `main`
reports invalid setup and returns cleanly, with neither `preprocess_board`
nor `find_solution` ever entered (zero preprocessing iterations, zero
search steps). -/
theorem c6_invalid_setup_exits_before_solving (fuel : Nat) (b0 : Board)
    (h : verifySolution b0 false = false) :
    runMain fuel b0 = some ⟨Outcome.invalidSetup, false, false⟩ := by
  unfold runMain
  rw [if_pos h]

/-- A 9×9 clue set whose row 1 contains the value 1 twice. -/
def dupRowClue (i j : Nat) : Nat :=
  if i = 1 ∧ j = 1 then 1 else if i = 1 ∧ j = 5 then 1 else 0

def dupRowBoard : Board := boardOfClues 3 dupRowClue

set_option maxRecDepth 1000000 in
/-- Witness for c6: the duplicated-clue board is rejected before solving. -/
theorem c6_invalid_setup_exits_before_solving_witness :
    verifySolution dupRowBoard false = false ∧
    runMain 20 dupRowBoard = some ⟨Outcome.invalidSetup, false, false⟩ :=
  ⟨by decide, c6_invalid_setup_exits_before_solving 20 dupRowBoard
    (by decide)⟩

/-! ### Basic facts about board updates -/

theorem board_ext {b b' : Board} (hn : b.n = b'.n)
    (hsq : ∀ x y, b.sq x y = b'.sq x y) : b = b' := by
  cases b; cases b'
  simp only [Board.mk.injEq]
  exact ⟨hn, funext fun x => funext fun y => hsq x y⟩

theorem setSq_n (b : Board) (i j : Nat) (s : Square) :
    (b.setSq i j s).n = b.n := rfl

theorem setSq_sq (b : Board) (i j x y : Nat) (s : Square) :
    (b.setSq i j s).sq x y = if x = i ∧ y = j then s else b.sq x y := rfl

theorem setSq_sq_self (b : Board) (i j : Nat) (s : Square) :
    (b.setSq i j s).sq i j = s := by
  rw [setSq_sq, if_pos ⟨rfl, rfl⟩]

theorem setSq_sq_ne (b : Board) (i j x y : Nat) (s : Square)
    (h : ¬(x = i ∧ y = j)) : (b.setSq i j s).sq x y = b.sq x y := by
  rw [setSq_sq, if_neg h]

/-- The per-neighbor update of `update_neighbors`, for a fixed transform
`g` of the square: skip frozen squares, rewrite the others. -/
def updCell (g : Square → Square) (bb : Board) (p : Nat × Nat) : Board :=
  let q := bb.sq p.1 p.2
  if q.frozen then bb else bb.setSq p.1 p.2 (g q)

theorem updCell_n (g : Square → Square) (bb : Board) (p : Nat × Nat) :
    (updCell g bb p).n = bb.n := by
  unfold updCell
  by_cases hfr : (bb.sq p.1 p.2).frozen = true
  · rw [if_pos hfr]
  · rw [if_neg hfr]; rfl

theorem updCell_sq_ne (g : Square → Square) (bb : Board) (p : Nat × Nat)
    (x y : Nat) (h : ¬(x = p.1 ∧ y = p.2)) :
    (updCell g bb p).sq x y = bb.sq x y := by
  unfold updCell
  by_cases hfr : (bb.sq p.1 p.2).frozen = true
  · rw [if_pos hfr]
  · rw [if_neg hfr]; exact setSq_sq_ne _ _ _ _ _ _ h

theorem foldl_updCell_n (g : Square → Square) (l : List (Nat × Nat))
    (bb : Board) : (l.foldl (updCell g) bb).n = bb.n := by
  induction l generalizing bb with
  | nil => rfl
  | cons p t ih => rw [List.foldl_cons, ih, updCell_n]

/-- Closed form of the `update_neighbors` fold over a duplicate-free cell
list: each listed unfrozen square is transformed once, everything else is
untouched. -/
theorem foldl_updCell_sq (g : Square → Square) (l : List (Nat × Nat))
    (hl : l.Nodup) (bb : Board) (x y : Nat) :
    (l.foldl (updCell g) bb).sq x y =
      if (x, y) ∈ l ∧ (bb.sq x y).frozen = false then g (bb.sq x y)
      else bb.sq x y := by
  induction l generalizing bb with
  | nil => simp
  | cons p t ih =>
    rcases List.nodup_cons.mp hl with ⟨hpt, hnd⟩
    rw [List.foldl_cons, ih hnd]
    by_cases hxy : (x, y) = p
    · subst hxy
      have hxt : ((x, y) : Nat × Nat) ∉ t := hpt
      rw [if_neg (fun hc => hxt hc.1)]
      have hup : (updCell g bb (x, y)).sq x y =
          if (bb.sq x y).frozen = false then g (bb.sq x y)
          else bb.sq x y := by
        unfold updCell
        by_cases hfr : (bb.sq x y).frozen = true
        · rw [if_pos hfr, if_neg (by simp [hfr])]
        · rw [if_neg hfr, setSq_sq_self,
            if_pos (Bool.not_eq_true _ ▸ hfr)]
      rw [hup]
      by_cases hfr : (bb.sq x y).frozen = false
      · rw [if_pos hfr, if_pos ⟨List.mem_cons_self _ _, hfr⟩]
      · rw [if_neg hfr, if_neg (fun hc => hfr hc.2)]
    · have hne : ¬(x = p.1 ∧ y = p.2) := by
        intro hc
        exact hxy (by
          obtain ⟨p1, p2⟩ := p
          simp only at hc
          rw [hc.1, hc.2])
      rw [updCell_sq_ne g bb p x y hne]
      have hiff : ((x, y) ∈ t) ↔ ((x, y) ∈ p :: t) :=
        ⟨List.mem_cons_of_mem p,
          fun h => (List.mem_cons.mp h).resolve_left hxy⟩
      by_cases hc : (x, y) ∈ t ∧ (bb.sq x y).frozen = false
      · rw [if_pos hc, if_pos ⟨hiff.mp hc.1, hc.2⟩]
      · rw [if_neg hc, if_neg (fun hc2 => hc ⟨hiff.mpr hc2.1, hc2.2⟩)]

/-! ### Bit-level facts about the candidate masks -/

theorem land_bitm_ne_zero (m v : Nat) :
    Nat.land m (bitm v) ≠ 0 ↔ m.testBit (64 - v) = true := by
  show m &&& 2 ^ (64 - v) ≠ 0 ↔ m.testBit (64 - v) = true
  rw [Nat.and_two_pow]
  cases h : m.testBit (64 - v) with
  | false => simp
  | true => simp [(Nat.two_pow_pos (64 - v)).ne']

theorem mul_sub_one_nat (a x : Nat) : a * (x - 1) = a * x - a := by
  cases x with
  | zero => simp
  | succ m => rw [Nat.succ_sub_one, Nat.mul_succ]; omega

theorem notBit_decomp {k : Nat} (hk1 : 1 ≤ k) (hk64 : k ≤ 64) :
    notBit k =
      2 ^ (64 - k + 1) * (2 ^ (63 - (64 - k)) - 1) + (2 ^ (64 - k) - 1) := by
  unfold notBit bitm
  have h1 : (2 : Nat) ^ 64 = 2 ^ (64 - k + 1) * 2 ^ (63 - (64 - k)) := by
    rw [← pow_add]; congr 1; omega
  rw [mul_sub_one_nat, ← h1]
  have h2 : (2 : Nat) ^ (64 - k + 1) = 2 * 2 ^ (64 - k) := by
    rw [pow_succ]; ring
  have h3 : (1 : Nat) ≤ 2 ^ (64 - k) := Nat.one_le_two_pow
  have h4 : (2 : Nat) ^ (64 - k + 1) ≤ 2 ^ 64 :=
    Nat.pow_le_pow_right (by omega) (by omega)
  omega

theorem testBit_notBit {k t : Nat} (hk1 : 1 ≤ k) (hk64 : k ≤ 64)
    (ht : t < 64) : (notBit k).testBit t = decide (t ≠ 64 - k) := by
  rw [notBit_decomp hk1 hk64]
  have hlt : (2 : Nat) ^ (64 - k) - 1 < 2 ^ (64 - k + 1) := by
    have h1 : (1 : Nat) ≤ 2 ^ (64 - k) := Nat.one_le_two_pow
    have h2 : (2 : Nat) ^ (64 - k) < 2 ^ (64 - k + 1) :=
      Nat.pow_lt_pow_right (by omega) (by omega)
    omega
  rw [Nat.testBit_mul_pow_two_add _ hlt t]
  by_cases h : t < 64 - k + 1
  · rw [if_pos h, Nat.testBit_two_pow_sub_one, decide_eq_decide]
    omega
  · rw [if_neg h, Nat.testBit_two_pow_sub_one, decide_eq_decide]
    omega

theorem foldl_lor_testBit (p : Nat → Prop) [DecidablePred p] (l : List Nat)
    (m0 : Nat) (t : Nat) :
    ((l.foldl (fun m k => if p k then Nat.lor m (bitm k) else m) m0).testBit t)
      = (m0.testBit t ||
          l.any (fun k => decide (p k) && decide (64 - k = t))) := by
  induction l generalizing m0 with
  | nil => simp
  | cons k rest ih =>
    rw [List.foldl_cons, List.any_cons, ih]
    by_cases hp : p k
    · rw [if_pos hp]
      have hlor : ∀ m t0 : Nat, (Nat.lor m (bitm k)).testBit t0
          = (m.testBit t0 || decide (64 - k = t0)) := by
        intro m t0
        have he : Nat.lor m (bitm k) = m ||| 2 ^ (64 - k) := rfl
        rw [he, Nat.testBit_lor, Nat.testBit_two_pow]
      rw [hlor]
      simp [hp, Bool.or_assoc]
    · rw [if_neg hp]
      simp [hp]

theorem seenCount_eq_zero (b : Board) (i j v : Nat) :
    seenCount b i j v = 0 ↔
      ∀ p ∈ neighbors b.n i j, (b.sq p.1 p.2).cur_value ≠ v := by
  unfold seenCount
  rw [List.length_eq_zero, List.filter_eq_nil]
  simp

theorem candMaskOf_bit (b : Board) (i j v : Nat) (hv1 : 1 ≤ v)
    (hv2 : v ≤ b.n2) (hn2 : b.n2 ≤ 64) :
    (Nat.land (candMaskOf b i j) (bitm v) ≠ 0) ↔ seenCount b i j v = 0 := by
  rw [land_bitm_ne_zero]
  unfold candMaskOf
  rw [foldl_lor_testBit]
  simp only [Nat.zero_testBit, Bool.false_or]
  rw [List.any_eq_true]
  constructor
  · rintro ⟨k, hk, hck⟩
    have hk' := mem_oneTo.mp hk
    simp only [Bool.and_eq_true, decide_eq_true_eq] at hck
    have hkv : k = v := by omega
    exact hkv ▸ hck.1
  · intro h
    refine ⟨v, mem_oneTo.mpr ⟨hv1, hv2⟩, ?_⟩
    simp [h]

/-! ### Analysis of `find_candidates` -/

theorem cellList_nodup (n2 : Nat) : (cellList n2).Nodup := by
  unfold cellList
  rw [List.nodup_bind]
  constructor
  · intro i _
    exact List.Nodup.map (fun _ _ h => congrArg Prod.snd h) (oneTo_nodup n2)
  · refine List.Pairwise.imp ?_ (oneTo_nodup n2)
    intro x y hxy p hp hq
    rcases List.mem_map.mp hp with ⟨_, _, rfl⟩
    rcases List.mem_map.mp hq with ⟨_, _, he⟩
    exact hxy (congrArg Prod.fst he).symm

theorem mem_cellList {n2 i j : Nat} :
    (i, j) ∈ cellList n2 ↔ (1 ≤ i ∧ i ≤ n2 ∧ 1 ≤ j ∧ j ≤ n2) := by
  unfold cellList
  constructor
  · intro h
    rcases List.mem_bind.mp h with ⟨i0, hi0, hmem⟩
    rcases List.mem_map.mp hmem with ⟨j0, hj0, he⟩
    injection he with e1 e2
    subst e1; subst e2
    rcases mem_oneTo.mp hi0 with ⟨h1, h2⟩
    rcases mem_oneTo.mp hj0 with ⟨h3, h4⟩
    exact ⟨h1, h2, h3, h4⟩
  · rintro ⟨h1, h2, h3, h4⟩
    exact List.mem_bind.mpr ⟨i, mem_oneTo.mpr ⟨h1, h2⟩,
      List.mem_map.mpr ⟨j, mem_oneTo.mpr ⟨h3, h4⟩, rfl⟩⟩

/-- Two boards of the same size agreeing cellwise on `cur_value` and
`frozen`. -/
def valueAgree (b b' : Board) : Prop :=
  b'.n = b.n ∧ ∀ x y : Nat, (b'.sq x y).cur_value = (b.sq x y).cur_value ∧
    (b'.sq x y).frozen = (b.sq x y).frozen

theorem valueAgree_refl (b : Board) : valueAgree b b :=
  ⟨rfl, fun _ _ => ⟨rfl, rfl⟩⟩

theorem seenCount_congr {b bb : Board} (h : valueAgree b bb) (i j v : Nat) :
    seenCount bb i j v = seenCount b i j v := by
  unfold seenCount
  rw [h.1]
  congr 1
  apply List.filter_congr
  intro p _
  rw [(h.2 p.1 p.2).1]

theorem candMaskOf_congr {b bb : Board} (h : valueAgree b bb) (i j : Nat) :
    candMaskOf bb i j = candMaskOf b i j := by
  unfold candMaskOf
  have hn : bb.n2 = b.n2 := by unfold Board.n2; rw [h.1]
  rw [hn]
  congr 1
  funext m k
  rw [seenCount_congr h]

theorem numCandsOf_congr {b bb : Board} (h : valueAgree b bb) (i j : Nat) :
    numCandsOf bb i j = numCandsOf b i j := by
  unfold numCandsOf
  have hn : bb.n2 = b.n2 := by unfold Board.n2; rw [h.1]
  rw [hn]
  congr 1
  apply List.filter_congr
  intro k _
  rw [seenCount_congr h]

theorem findCandidateAt_n (bb : Board) (i j : Nat) :
    (findCandidateAt bb i j).1.n = bb.n := by
  unfold findCandidateAt
  by_cases h : (bb.sq i j).frozen = true
  · rw [if_pos h]
  · rw [if_neg h]; rfl

theorem findCandidateAt_sq_ne (bb : Board) (i j x y : Nat)
    (h : ¬(x = i ∧ y = j)) :
    (findCandidateAt bb i j).1.sq x y = bb.sq x y := by
  unfold findCandidateAt
  by_cases hf : (bb.sq i j).frozen = true
  · rw [if_pos hf]
  · rw [if_neg hf]
    exact setSq_sq_ne _ _ _ _ _ _ h

theorem findCandidateAt_valueAgree {b bb : Board} (h : valueAgree b bb)
    (i j : Nat) : valueAgree b (findCandidateAt bb i j).1 := by
  refine ⟨(findCandidateAt_n bb i j).trans h.1, fun x y => ?_⟩
  by_cases hxy : x = i ∧ y = j
  · unfold findCandidateAt
    by_cases hf : (bb.sq i j).frozen = true
    · rw [if_pos hf]; exact h.2 x y
    · rw [if_neg hf]
      obtain ⟨rfl, rfl⟩ := hxy
      rw [setSq_sq_self]
      exact h.2 x y
  · rw [findCandidateAt_sq_ne bb i j x y hxy]
    exact h.2 x y

theorem foldl_fcStep_valueAgree {b : Board} (l : List (Nat × Nat)) :
    ∀ (st : Board × Bool), valueAgree b st.1 →
      valueAgree b (l.foldl fcStep st).1 := by
  induction l with
  | nil => intro st h; exact h
  | cons p t ih =>
    intro st h
    exact ih _ (findCandidateAt_valueAgree h p.1 p.2)

theorem foldl_fcStep_sq_ne (l : List (Nat × Nat)) (x y : Nat)
    (hx : (x, y) ∉ l) :
    ∀ st : Board × Bool, (l.foldl fcStep st).1.sq x y = st.1.sq x y := by
  induction l with
  | nil => intro st; rfl
  | cons p t ih =>
    intro st
    have hxt : (x, y) ∉ t := fun h => hx (List.mem_cons_of_mem p h)
    have hxp : ¬(x = p.1 ∧ y = p.2) := by
      intro hc
      apply hx
      obtain ⟨p1, p2⟩ := p
      simp only at hc
      rw [List.mem_cons]
      exact Or.inl (by rw [hc.1, hc.2])
    rw [List.foldl_cons, ih hxt]
    exact findCandidateAt_sq_ne _ _ _ _ _ hxp

/-- After the `find_candidates` fold, every listed unfrozen square carries
exactly the base frame `[candMaskOf b i j]` and its popcount. -/
theorem foldl_fcStep_sq {b : Board} (i j : Nat)
    (hfr : (b.sq i j).frozen = false) :
    ∀ (l : List (Nat × Nat)), l.Nodup → (i, j) ∈ l →
    ∀ (st : Board × Bool), valueAgree b st.1 →
      (l.foldl fcStep st).1.sq i j =
        { st.1.sq i j with
            cands := [candMaskOf b i j]
            num_candidates := numCandsOf b i j } := by
  intro l
  induction l with
  | nil => intro _ hm; cases hm
  | cons p t ih =>
    intro hnd hm st hag
    rcases List.nodup_cons.mp hnd with ⟨hpt, hndt⟩
    by_cases hp : p = (i, j)
    · subst hp
      have hnt : (i, j) ∉ t := hpt
      rw [List.foldl_cons, foldl_fcStep_sq_ne t i j hnt]
      show (findCandidateAt st.1 i j).1.sq i j = _
      have hfr' : (st.1.sq i j).frozen = false := by
        rw [(hag.2 i j).2]; exact hfr
      unfold findCandidateAt
      rw [if_neg (by rw [hfr']; exact Bool.false_ne_true), setSq_sq_self,
        candMaskOf_congr hag, numCandsOf_congr hag]
    · have hmt : (i, j) ∈ t := (List.mem_cons.mp hm).resolve_left
        (fun h => hp h.symm)
      rw [List.foldl_cons]
      have hag' : valueAgree b (findCandidateAt st.1 p.1 p.2).1 :=
        findCandidateAt_valueAgree hag p.1 p.2
      have := ih hndt hmt (fcStep st p) hag'
      rw [this]
      have hsq : (fcStep st p).1.sq i j = st.1.sq i j := by
        show (findCandidateAt st.1 p.1 p.2).1.sq i j = st.1.sq i j
        apply findCandidateAt_sq_ne
        intro hc
        apply hp
        obtain ⟨p1, p2⟩ := p
        simp only at hc
        rw [hc.1, hc.2]
      rw [hsq]

theorem findCandidates_n (b : Board) : (findCandidates b).1.n = b.n :=
  (foldl_fcStep_valueAgree (cellList b.n2) (b, true) (valueAgree_refl b)).1

theorem findCandidates_valueAgree (b : Board) :
    valueAgree b (findCandidates b).1 :=
  foldl_fcStep_valueAgree (cellList b.n2) (b, true) (valueAgree_refl b)

theorem findCandidates_sq (b : Board) (i j : Nat)
    (hi1 : 1 ≤ i) (hi2 : i ≤ b.n2) (hj1 : 1 ≤ j) (hj2 : j ≤ b.n2)
    (hfr : (b.sq i j).frozen = false) :
    (findCandidates b).1.sq i j =
      { b.sq i j with
          cands := [candMaskOf b i j]
          num_candidates := numCandsOf b i j } :=
  foldl_fcStep_sq i j hfr (cellList b.n2) (cellList_nodup b.n2)
    (mem_cellList.mpr ⟨hi1, hi2, hj1, hj2⟩) (b, true) (valueAgree_refl b)

/-! ### Analysis of `update_neighbors` -/

/-- The square transform applied by `update_neighbors` to unfrozen
neighbors. -/
def unTransform (piece : Nat) (ma : Bool) (q : Square) : Square :=
  if ma then { q with cands := q.cands.tail }
  else { q with cands := Nat.land (q.cands.headD 0) (notBit piece) ::
    q.cands }

theorem updateNeighbors_eq_foldl (b : Board) (row col piece : Nat)
    (ma : Bool) :
    updateNeighbors b row col piece ma =
      (neighbors b.n row col).foldl (updCell (unTransform piece ma)) b := by
  unfold updateNeighbors updCell unTransform
  congr 1
  funext bb p
  cases ma with
  | true => by_cases hf : (bb.sq p.1 p.2).frozen = true <;> simp [hf]
  | false => by_cases hf : (bb.sq p.1 p.2).frozen = true <;> simp [hf]

theorem updateNeighbors_n (b : Board) (row col piece : Nat) (ma : Bool) :
    (updateNeighbors b row col piece ma).n = b.n := by
  rw [updateNeighbors_eq_foldl]
  exact foldl_updCell_n _ _ _

theorem updateNeighbors_sq (b : Board) (row col piece : Nat) (ma : Bool)
    (x y : Nat) (hnd : (neighbors b.n row col).Nodup) :
    (updateNeighbors b row col piece ma).sq x y =
      if (x, y) ∈ neighbors b.n row col ∧ (b.sq x y).frozen = false then
        unTransform piece ma (b.sq x y)
      else b.sq x y := by
  rw [updateNeighbors_eq_foldl]
  exact foldl_updCell_sq _ _ hnd b x y

theorem unTransform_fields (piece : Nat) (ma : Bool) (q : Square) :
    (unTransform piece ma q).cur_value = q.cur_value ∧
    (unTransform piece ma q).frozen = q.frozen ∧
    (unTransform piece ma q).num_candidates = q.num_candidates := by
  cases ma <;> exact ⟨rfl, rfl, rfl⟩

theorem updCell_fields {g : Square → Square}
    (hg : ∀ q, (g q).cur_value = q.cur_value ∧ (g q).frozen = q.frozen ∧
      (g q).num_candidates = q.num_candidates)
    (bb : Board) (p : Nat × Nat) (x y : Nat) :
    ((updCell g bb p).sq x y).cur_value = (bb.sq x y).cur_value ∧
    ((updCell g bb p).sq x y).frozen = (bb.sq x y).frozen ∧
    ((updCell g bb p).sq x y).num_candidates =
      (bb.sq x y).num_candidates := by
  unfold updCell
  by_cases hf : (bb.sq p.1 p.2).frozen = true
  · rw [if_pos hf]; exact ⟨rfl, rfl, rfl⟩
  · rw [if_neg hf]
    by_cases hxy : x = p.1 ∧ y = p.2
    · obtain ⟨rfl, rfl⟩ := hxy
      rw [setSq_sq_self]
      exact hg _
    · rw [setSq_sq_ne _ _ _ _ _ _ hxy]
      exact ⟨rfl, rfl, rfl⟩

theorem foldl_updCell_fields {g : Square → Square}
    (hg : ∀ q, (g q).cur_value = q.cur_value ∧ (g q).frozen = q.frozen ∧
      (g q).num_candidates = q.num_candidates)
    (l : List (Nat × Nat)) :
    ∀ (bb : Board) (x y : Nat),
      ((l.foldl (updCell g) bb).sq x y).cur_value = (bb.sq x y).cur_value ∧
      ((l.foldl (updCell g) bb).sq x y).frozen = (bb.sq x y).frozen ∧
      ((l.foldl (updCell g) bb).sq x y).num_candidates =
        (bb.sq x y).num_candidates := by
  induction l with
  | nil => intro bb x y; exact ⟨rfl, rfl, rfl⟩
  | cons p t ih =>
    intro bb x y
    rw [List.foldl_cons]
    rcases ih (updCell g bb p) x y with ⟨h1, h2, h3⟩
    rcases updCell_fields hg bb p x y with ⟨g1, g2, g3⟩
    exact ⟨h1.trans g1, h2.trans g2, h3.trans g3⟩

theorem updateNeighbors_fields (b : Board) (row col piece : Nat)
    (ma : Bool) (x y : Nat) :
    ((updateNeighbors b row col piece ma).sq x y).cur_value =
      (b.sq x y).cur_value ∧
    ((updateNeighbors b row col piece ma).sq x y).frozen =
      (b.sq x y).frozen ∧
    ((updateNeighbors b row col piece ma).sq x y).num_candidates =
      (b.sq x y).num_candidates := by
  rw [updateNeighbors_eq_foldl]
  exact foldl_updCell_fields (unTransform_fields piece ma) _ b x y

/-! ### The top-of-stack candidate invariant (spec §3) -/

/-- The specification's candidate-stack invariant: every in-range unfrozen
square has a live top frame, and bit `v` is set in that frame iff no
neighbor of the square currently holds `v`. -/
def maskExact (b : Board) : Prop :=
  ∀ i < b.n2 + 1, ∀ j < b.n2 + 1, 1 ≤ i → 1 ≤ j →
    (b.sq i j).frozen = false →
      (b.sq i j).cands ≠ [] ∧
      ∀ v < b.n2 + 1, 1 ≤ v →
        (Nat.land ((b.sq i j).cands.headD 0) (bitm v) ≠ 0 ↔
          ∀ p ∈ neighbors b.n i j, (b.sq p.1 p.2).cur_value ≠ v)

theorem n_pos_of_range {n r : Nat} (h1 : 1 ≤ r) (h2 : r ≤ n * n) :
    1 ≤ n := by
  rcases Nat.eq_zero_or_pos n with h | h
  · subst h; simp at h2; omega
  · exact h

theorem not_self_mem_neighbors {n r c : Nat} (hn : 1 ≤ n)
    (hr1 : 1 ≤ r) (hr2 : r ≤ n * n) (hc1 : 1 ≤ c) (hc2 : c ≤ n * n) :
    (r, c) ∉ neighbors n r c := fun h =>
  ((mem_neighbors_iff hn hr1 hr2 hc1 hc2).mp h).2.2.2.2.1 ⟨rfl, rfl⟩

theorem neighbors_range {n i j a b : Nat} (hn : 1 ≤ n)
    (hi1 : 1 ≤ i) (hi2 : i ≤ n * n) (hj1 : 1 ≤ j) (hj2 : j ≤ n * n)
    (h : (a, b) ∈ neighbors n i j) :
    1 ≤ a ∧ a ≤ n * n ∧ 1 ≤ b ∧ b ≤ n * n := by
  rcases (mem_neighbors_iff hn hi1 hi2 hj1 hj2).mp h with
    ⟨h1, h2, h3, h4, _, _⟩
  exact ⟨h1, h2, h3, h4⟩

theorem neighbors_symm {n i j a b : Nat} (hn : 1 ≤ n)
    (hi1 : 1 ≤ i) (hi2 : i ≤ n * n) (hj1 : 1 ≤ j) (hj2 : j ≤ n * n)
    (h : (a, b) ∈ neighbors n i j) : (i, j) ∈ neighbors n a b := by
  rcases (mem_neighbors_iff hn hi1 hi2 hj1 hj2).mp h with
    ⟨h1, h2, h3, h4, h5, h6⟩
  refine (mem_neighbors_iff hn h1 h2 h3 h4).mpr
    ⟨hi1, hi2, hj1, hj2, fun hc => h5 ⟨hc.1.symm ▸ rfl, hc.2.symm ▸ rfl⟩, ?_⟩
  rcases h6 with h | h | ⟨ha, hb⟩
  · exact Or.inl h.symm
  · exact Or.inr (Or.inl h.symm)
  · exact Or.inr (Or.inr ⟨ha.symm, hb.symm⟩)

/-- Part 1 of c2: a full base-candidate recomputation establishes the
invariant, on any board. -/
theorem maskExact_findCandidates (b : Board) (hn2 : b.n2 ≤ 64) :
    maskExact (findCandidates b).1 := by
  have hag := findCandidates_valueAgree b
  have hn : (findCandidates b).1.n = b.n := hag.1
  have hn2' : (findCandidates b).1.n2 = b.n2 := by
    unfold Board.n2; rw [hn]
  intro i hi j hj hi1 hj1 hfr
  rw [hn2'] at hi hj
  have hfr0 : (b.sq i j).frozen = false := by
    rw [← (hag.2 i j).2]; exact hfr
  have hsq := findCandidates_sq b i j hi1 (by omega) hj1 (by omega) hfr0
  refine ⟨by rw [hsq]; simp, ?_⟩
  intro v hv hv1
  rw [hn2'] at hv
  rw [hsq]
  show Nat.land (List.headD [candMaskOf b i j] 0) (bitm v) ≠ 0 ↔ _
  have hhead : List.headD [candMaskOf b i j] 0 = candMaskOf b i j := rfl
  rw [hhead, candMaskOf_bit b i j v hv1 (by omega) hn2, seenCount_eq_zero,
    hn]
  constructor
  · intro h p hp
    rw [(hag.2 p.1 p.2).1]
    exact h p hp
  · intro h p hp
    rw [← (hag.2 p.1 p.2).1]
    exact h p hp

theorem land_land_notBit (m k v : Nat) (hk1 : 1 ≤ k) (hk64 : k ≤ 64)
    (hv1 : 1 ≤ v) (hv64 : v ≤ 64) :
    (Nat.land (Nat.land m (notBit k)) (bitm v) ≠ 0) ↔
      (v ≠ k ∧ Nat.land m (bitm v) ≠ 0) := by
  rw [land_bitm_ne_zero, land_bitm_ne_zero]
  have he : Nat.land m (notBit k) = m &&& notBit k := rfl
  rw [he, Nat.testBit_land, testBit_notBit hk1 hk64 (by omega),
    Bool.and_eq_true, decide_eq_true_eq]
  constructor
  · rintro ⟨h1, h2⟩; exact ⟨by omega, h1⟩
  · rintro ⟨h1, h2⟩; exact ⟨h2, by omega⟩

/-- Part 2 of c2: assigning value `k` to an empty unfrozen square and then
restricting all unfrozen neighbors (`update_neighbors(…, false)`, exactly
the assignment step of `find_solution`) preserves the invariant. -/
theorem maskExact_restrict (b : Board) (r c k : Nat)
    (hn2 : b.n2 ≤ 64)
    (hr1 : 1 ≤ r) (hr2 : r ≤ b.n2) (hc1 : 1 ≤ c) (hc2 : c ≤ b.n2)
    (hfr : (b.sq r c).frozen = false) (hcur : (b.sq r c).cur_value = 0)
    (hk1 : 1 ≤ k) (hk2 : k ≤ b.n2) (hme : maskExact b) :
    maskExact (updateNeighbors
      (b.setSq r c { b.sq r c with cur_value := k }) r c k false) := by
  have hr2' : r ≤ b.n * b.n := hr2
  have hc2' : c ≤ b.n * b.n := hc2
  have hnpos : 1 ≤ b.n := n_pos_of_range hr1 hr2'
  set B1 := b.setSq r c { b.sq r c with cur_value := k } with hB1def
  set B2 := updateNeighbors B1 r c k false with hB2def
  have hB1n : B1.n = b.n := rfl
  have hB2n : B2.n = b.n := by rw [hB2def, updateNeighbors_n, hB1n]
  have hB2n2 : B2.n2 = b.n2 := by unfold Board.n2; rw [hB2n]
  have hndb : (neighbors b.n r c).Nodup := neighbors_nodup hnpos hr1 hc1
  have hnd1 : (neighbors B1.n r c).Nodup := by rw [hB1n]; exact hndb
  have hB1sq_ne : ∀ x y, ¬(x = r ∧ y = c) → B1.sq x y = b.sq x y :=
    fun x y h => setSq_sq_ne _ _ _ _ _ _ h
  have hB1rc : B1.sq r c = { b.sq r c with cur_value := k } :=
    setSq_sq_self _ _ _ _
  have hB1fro : ∀ x y, (B1.sq x y).frozen = (b.sq x y).frozen := by
    intro x y
    by_cases h : x = r ∧ y = c
    · obtain ⟨rfl, rfl⟩ := h; rw [hB1rc]
    · rw [hB1sq_ne x y h]
  have hB2sq : ∀ x y, B2.sq x y =
      if (x, y) ∈ neighbors b.n r c ∧ (B1.sq x y).frozen = false then
        unTransform k false (B1.sq x y)
      else B1.sq x y := by
    intro x y
    have h := updateNeighbors_sq B1 r c k false x y hnd1
    rw [hB1n] at h
    exact h
  have hB2fro : ∀ x y, (B2.sq x y).frozen = (b.sq x y).frozen := by
    intro x y
    rw [hB2def, (updateNeighbors_fields B1 r c k false x y).2.1, hB1fro]
  have hB2val_ne : ∀ x y, ¬(x = r ∧ y = c) →
      (B2.sq x y).cur_value = (b.sq x y).cur_value := by
    intro x y h
    rw [hB2def, (updateNeighbors_fields B1 r c k false x y).1,
      hB1sq_ne x y h]
  have hB2val_rc : (B2.sq r c).cur_value = k := by
    rw [hB2def, (updateNeighbors_fields B1 r c k false r c).1, hB1rc]
  intro i hi j hj hi1 hj1 hifr
  rw [hB2n2] at hi hj
  have hib : i ≤ b.n2 := by omega
  have hjb : j ≤ b.n2 := by omega
  have hib' : i ≤ b.n * b.n := hib
  have hjb' : j ≤ b.n * b.n := hjb
  have hifr_b : (b.sq i j).frozen = false := by
    rw [← hB2fro i j]; exact hifr
  have hold := hme i (by omega) j (by omega) hi1 hj1 hifr_b
  by_cases hij_rc : i = r ∧ j = c
  · obtain ⟨rfl, rfl⟩ := hij_rc
    have hnotself : ((i, j) : Nat × Nat) ∉ neighbors b.n i j :=
      not_self_mem_neighbors hnpos hi1 hib' hj1 hjb'
    have hB2rc : B2.sq i j = B1.sq i j := by
      rw [hB2sq]
      exact if_neg (fun hcon => hnotself hcon.1)
    rw [hB2rc, hB1rc]
    refine ⟨hold.1, ?_⟩
    intro v hv hv1
    rw [hB2n2] at hv
    have hiff := hold.2 v (by omega) hv1
    refine hiff.trans ?_
    rw [hB2n]
    constructor
    · intro h p hp
      have hpne : ¬(p.1 = i ∧ p.2 = j) := by
        intro hc
        apply hnotself
        have hpe : p = (i, j) := by
          obtain ⟨p1, p2⟩ := p
          simp only at hc
          rw [hc.1, hc.2]
        rw [← hpe]
        exact hp
      rw [hB2val_ne p.1 p.2 hpne]
      exact h p hp
    · intro h p hp
      have hpne : ¬(p.1 = i ∧ p.2 = j) := by
        intro hc
        apply hnotself
        have hpe : p = (i, j) := by
          obtain ⟨p1, p2⟩ := p
          simp only at hc
          rw [hc.1, hc.2]
        rw [← hpe]
        exact hp
      rw [← hB2val_ne p.1 p.2 hpne]
      exact h p hp
  · by_cases hijn : ((i, j) : Nat × Nat) ∈ neighbors b.n r c
    · have hB1ij : B1.sq i j = b.sq i j := hB1sq_ne i j hij_rc
      have hB2ij : B2.sq i j = unTransform k false (b.sq i j) := by
        rw [hB2sq, if_pos ⟨hijn, by rw [hB1ij]; exact hifr_b⟩, hB1ij]
      rw [hB2ij]
      have hform : unTransform k false (b.sq i j) =
          { b.sq i j with
              cands := Nat.land ((b.sq i j).cands.headD 0) (notBit k) :: (b.sq i j).cands } := rfl
      rw [hform]
      refine ⟨by simp, ?_⟩
      intro v hv hv1
      rw [hB2n2] at hv
      show Nat.land (Nat.land ((b.sq i j).cands.headD 0) (notBit k))
        (bitm v) ≠ 0 ↔ _
      rw [land_land_notBit _ k v hk1 (by omega) hv1 (by omega)]
      have hiff := hold.2 v (by omega) hv1
      have hrc_in : ((r, c) : Nat × Nat) ∈ neighbors b.n i j :=
        neighbors_symm hnpos hr1 hr2' hc1 hc2' hijn
      rw [hB2n]
      constructor
      · rintro ⟨hvk, hbit⟩ p hp
        by_cases hprc : p = (r, c)
        · subst hprc
          show ¬(B2.sq r c).cur_value = v
          rw [hB2val_rc]
          omega
        · have hpne : ¬(p.1 = r ∧ p.2 = c) := by
            intro hc
            apply hprc
            obtain ⟨p1, p2⟩ := p
            simp only at hc
            rw [hc.1, hc.2]
          rw [hB2val_ne p.1 p.2 hpne]
          exact hiff.mp hbit p hp
      · intro h
        refine ⟨?_, hiff.mpr ?_⟩
        · have hh := h (r, c) hrc_in
          rw [hB2val_rc] at hh
          omega
        · intro p hp
          by_cases hprc : p = (r, c)
          · subst hprc
            show ¬(b.sq r c).cur_value = v
            rw [hcur]
            omega
          · have hpne : ¬(p.1 = r ∧ p.2 = c) := by
              intro hc
              apply hprc
              obtain ⟨p1, p2⟩ := p
              simp only at hc
              rw [hc.1, hc.2]
            rw [← hB2val_ne p.1 p.2 hpne]
            exact h p hp
    · have hB2ij : B2.sq i j = b.sq i j := by
        rw [hB2sq, if_neg (fun hcon => hijn hcon.1), hB1sq_ne i j hij_rc]
      rw [hB2ij]
      refine ⟨hold.1, ?_⟩
      intro v hv hv1
      rw [hB2n2] at hv
      have hiff := hold.2 v (by omega) hv1
      refine hiff.trans ?_
      rw [hB2n]
      have hprc_notin : ((r, c) : Nat × Nat) ∉ neighbors b.n i j := by
        intro hmem
        exact hijn (neighbors_symm hnpos hi1 hib' hj1 hjb' hmem)
      constructor
      · intro h p hp
        have hpne : ¬(p.1 = r ∧ p.2 = c) := by
          intro hc
          apply hprc_notin
          have hpe : p = (r, c) := by
            obtain ⟨p1, p2⟩ := p
            simp only at hc
            rw [hc.1, hc.2]
          rw [← hpe]
          exact hp
        rw [hB2val_ne p.1 p.2 hpne]
        exact h p hp
      · intro h p hp
        have hpne : ¬(p.1 = r ∧ p.2 = c) := by
          intro hc
          apply hprc_notin
          have hpe : p = (r, c) := by
            obtain ⟨p1, p2⟩ := p
            simp only at hc
            rw [hc.1, hc.2]
          rw [← hpe]
          exact hp
        rw [← hB2val_ne p.1 p.2 hpne]
        exact h p hp

theorem square_cur_roundtrip (q : Square) (k : Nat)
    (h : q.cur_value = 0) :
    { ({ q with cur_value := k }) with cur_value := 0 } = q := by
  cases q with
  | mk a f cs nc =>
    simp only at h
    rw [← h]

theorem unTransform_roundtrip (k : Nat) (q : Square) :
    unTransform k true (unTransform k false q) = q := by
  cases q
  rfl

/-- Part 3 of c2: the undo step of `find_solution` (release on all unfrozen
neighbors, then clearing the square) restores the exact board that the
matching assign-and-restrict step started from; in particular it preserves
the invariant. -/
theorem restrict_release_roundtrip (b : Board) (r c k : Nat)
    (hr1 : 1 ≤ r) (hr2 : r ≤ b.n2) (hc1 : 1 ≤ c) (hc2 : c ≤ b.n2)
    (hcur : (b.sq r c).cur_value = 0) :
    (updateNeighbors (updateNeighbors
        (b.setSq r c { b.sq r c with cur_value := k }) r c k false)
        r c k true).setSq r c
      { ((updateNeighbors (updateNeighbors
          (b.setSq r c { b.sq r c with cur_value := k }) r c k false)
          r c k true).sq r c) with cur_value := 0 } = b := by
  have hr2' : r ≤ b.n * b.n := hr2
  have hc2' : c ≤ b.n * b.n := hc2
  have hnpos : 1 ≤ b.n := n_pos_of_range hr1 hr2'
  have hndb : (neighbors b.n r c).Nodup := neighbors_nodup hnpos hr1 hc1
  have hnotself : ((r, c) : Nat × Nat) ∉ neighbors b.n r c :=
    not_self_mem_neighbors hnpos hr1 hr2' hc1 hc2'
  obtain ⟨B1, hB1def⟩ :
      ∃ B1, b.setSq r c { b.sq r c with cur_value := k } = B1 := ⟨_, rfl⟩
  rw [hB1def]
  have hB1n : B1.n = b.n := by rw [← hB1def]; exact setSq_n _ _ _ _
  have hB1sq_ne : ∀ x y, ¬(x = r ∧ y = c) → B1.sq x y = b.sq x y := by
    intro x y h
    rw [← hB1def]
    exact setSq_sq_ne _ _ _ _ _ _ h
  have hB1rc : B1.sq r c = { b.sq r c with cur_value := k } := by
    rw [← hB1def]
    exact setSq_sq_self _ _ _ _
  obtain ⟨B2, hB2def⟩ : ∃ B2, updateNeighbors B1 r c k false = B2 :=
    ⟨_, rfl⟩
  rw [hB2def]
  have hB2n : B2.n = b.n := by rw [← hB2def, updateNeighbors_n, hB1n]
  have hnd1 : (neighbors B1.n r c).Nodup := by rw [hB1n]; exact hndb
  have hB2sq : ∀ x y, B2.sq x y =
      if (x, y) ∈ neighbors b.n r c ∧ (B1.sq x y).frozen = false then
        unTransform k false (B1.sq x y)
      else B1.sq x y := by
    intro x y
    have h := updateNeighbors_sq B1 r c k false x y hnd1
    rw [hB1n] at h
    rw [← hB2def]
    exact h
  have hB2fro : ∀ x y, (B2.sq x y).frozen = (B1.sq x y).frozen := by
    intro x y
    rw [← hB2def]
    exact (updateNeighbors_fields B1 r c k false x y).2.1
  obtain ⟨B3, hB3def⟩ : ∃ B3, updateNeighbors B2 r c k true = B3 :=
    ⟨_, rfl⟩
  rw [hB3def]
  have hB3n : B3.n = b.n := by rw [← hB3def, updateNeighbors_n, hB2n]
  have hnd2 : (neighbors B2.n r c).Nodup := by rw [hB2n]; exact hndb
  have hB3sq : ∀ x y, B3.sq x y =
      if (x, y) ∈ neighbors b.n r c ∧ (B2.sq x y).frozen = false then
        unTransform k true (B2.sq x y)
      else B2.sq x y := by
    intro x y
    have h := updateNeighbors_sq B2 r c k true x y hnd2
    rw [hB2n] at h
    rw [← hB3def]
    exact h
  apply board_ext
  · exact hB3n
  · intro x y
    by_cases hxy : x = r ∧ y = c
    · obtain ⟨rfl, rfl⟩ := hxy
      rw [setSq_sq_self]
      have h3 : B3.sq x y = B2.sq x y := by
        rw [hB3sq]
        exact if_neg (fun hcon => hnotself hcon.1)
      have h2 : B2.sq x y = B1.sq x y := by
        rw [hB2sq]
        exact if_neg (fun hcon => hnotself hcon.1)
      rw [h3, h2, hB1rc]
      exact square_cur_roundtrip (b.sq x y) k hcur
    · rw [setSq_sq_ne _ _ _ _ _ _ hxy]
      have hb1 : B1.sq x y = b.sq x y := hB1sq_ne x y hxy
      by_cases hmem : ((x, y) : Nat × Nat) ∈ neighbors b.n r c
      · by_cases hfro : (b.sq x y).frozen = false
        · have h2 : B2.sq x y = unTransform k false (b.sq x y) := by
            rw [hB2sq, if_pos ⟨hmem, by rw [hb1]; exact hfro⟩, hb1]
          have hfro2 : (B2.sq x y).frozen = false := by
            rw [hB2fro, hb1]
            exact hfro
          have h3 : B3.sq x y = unTransform k true (B2.sq x y) := by
            rw [hB3sq, if_pos ⟨hmem, hfro2⟩]
          rw [h3, h2]
          exact unTransform_roundtrip k (b.sq x y)
        · have h2 : B2.sq x y = b.sq x y := by
            rw [hB2sq,
              if_neg (fun hcon => hfro (by rw [← hb1]; exact hcon.2)), hb1]
          have h3 : B3.sq x y = B2.sq x y := by
            rw [hB3sq]
            exact if_neg (fun hcon => hfro (by rw [← h2]; exact hcon.2))
          rw [h3, h2]
      · have h2 : B2.sq x y = b.sq x y := by
          rw [hB2sq, if_neg (fun hcon => hmem hcon.1), hb1]
        have h3 : B3.sq x y = B2.sq x y := by
          rw [hB3sq]
          exact if_neg (fun hcon => hmem hcon.1)
        rw [h3, h2]

instance maskExactInnerDec (b : Board) (i j : Nat) :
    Decidable (∀ v < b.n2 + 1, 1 ≤ v →
      (Nat.land ((b.sq i j).cands.headD 0) (bitm v) ≠ 0 ↔
        ∀ p ∈ neighbors b.n i j, (b.sq p.1 p.2).cur_value ≠ v)) :=
  inferInstance

instance maskExactCellDec (b : Board) (i j : Nat) :
    Decidable (1 ≤ i → 1 ≤ j → (b.sq i j).frozen = false →
      ((b.sq i j).cands ≠ [] ∧
        ∀ v < b.n2 + 1, 1 ≤ v →
          (Nat.land ((b.sq i j).cands.headD 0) (bitm v) ≠ 0 ↔
            ∀ p ∈ neighbors b.n i j, (b.sq p.1 p.2).cur_value ≠ v))) :=
  inferInstance

instance maskExactDec (b : Board) : Decidable (maskExact b) := by
  unfold maskExact
  infer_instance

/-- c2: the top-of-stack candidate invariant.  (1) A base-candidate
recomputation (`find_candidates`) establishes it on any board; (2) the
assignment step of `find_solution` — write value `k` into an empty unfrozen
square and `update_neighbors(…, restrict)` — preserves it; (3) the undo
step — `update_neighbors(…, release)` and clearing the square — restores
the pre-assignment board exactly, hence also preserves it. -/
theorem c2_candidate_stack_invariant (b : Board) (r c k : Nat)
    (hn2 : b.n2 ≤ 64) (hr1 : 1 ≤ r) (hr2 : r ≤ b.n2) (hc1 : 1 ≤ c)
    (hc2 : c ≤ b.n2) (hfr : (b.sq r c).frozen = false)
    (hcur : (b.sq r c).cur_value = 0) (hk1 : 1 ≤ k) (hk2 : k ≤ b.n2)
    (hme : maskExact b) :
    maskExact (findCandidates b).1 ∧
    maskExact (updateNeighbors
      (b.setSq r c { b.sq r c with cur_value := k }) r c k false) ∧
    (updateNeighbors (updateNeighbors
        (b.setSq r c { b.sq r c with cur_value := k }) r c k false)
        r c k true).setSq r c
      { ((updateNeighbors (updateNeighbors
          (b.setSq r c { b.sq r c with cur_value := k }) r c k false)
          r c k true).sq r c) with cur_value := 0 } = b :=
  ⟨maskExact_findCandidates b hn2,
    maskExact_restrict b r c k hn2 hr1 hr2 hc1 hc2 hfr hcur hk1 hk2 hme,
    restrict_release_roundtrip b r c k hr1 hr2 hc1 hc2 hcur⟩

/-- A complete valid 9×9 grid, used for witnesses. -/
def s9 (i j : Nat) : Nat := (3 * (i - 1) + (i - 1) / 3 + (j - 1)) % 9 + 1

/-- The grid `s9` with a single blank at `(1, 1)`. -/
def s9Hole : Board :=
  boardOfClues 3 (fun i j => if i = 1 ∧ j = 1 then 0 else s9 i j)

/-- `s9Hole` after one base-candidate recomputation. -/
def wBase : Board := (findCandidates s9Hole).1

set_option maxRecDepth 1000000 in
/-- Witness for c2 on `wBase` at square `(1, 1)` with value `k = 1`. -/
theorem c2_candidate_stack_invariant_witness :
    (wBase.n2 ≤ 64 ∧ 1 ≤ 1 ∧ 1 ≤ wBase.n2 ∧
      (wBase.sq 1 1).frozen = false ∧ (wBase.sq 1 1).cur_value = 0 ∧
      maskExact wBase) ∧
    (maskExact (findCandidates wBase).1 ∧
      maskExact (updateNeighbors
        (wBase.setSq 1 1 { wBase.sq 1 1 with cur_value := 1 }) 1 1 1
        false) ∧
      (updateNeighbors (updateNeighbors
          (wBase.setSq 1 1 { wBase.sq 1 1 with cur_value := 1 }) 1 1 1
          false) 1 1 1 true).setSq 1 1
        { ((updateNeighbors (updateNeighbors
            (wBase.setSq 1 1 { wBase.sq 1 1 with cur_value := 1 }) 1 1 1
            false) 1 1 1 true).sq 1 1) with cur_value := 0 } = wBase) :=
  ⟨⟨by decide, by decide, by decide, by decide, by decide, by decide⟩,
    c2_candidate_stack_invariant wBase 1 1 1 (by decide) (by decide)
      (by decide) (by decide) (by decide) (by decide) (by decide)
      (by decide) (by decide) (by decide)⟩

/-! ### Frozen squares are never touched (c4) -/

/-- Every square frozen on `b0` still carries exactly the same `Square`
record on `b`. -/
def frozenPreserved (b0 b : Board) : Prop :=
  ∀ i j, (b0.sq i j).frozen = true → b.sq i j = b0.sq i j

theorem frozenPreserved_refl (b : Board) : frozenPreserved b b :=
  fun _ _ _ => rfl

theorem frozenPreserved_trans {b0 b1 b2 : Board}
    (h1 : frozenPreserved b0 b1) (h2 : frozenPreserved b1 b2) :
    frozenPreserved b0 b2 := by
  intro i j hf
  have he := h1 i j hf
  have hf1 : (b1.sq i j).frozen = true := by rw [he]; exact hf
  rw [h2 i j hf1, he]

theorem findCandidateAt_frozenPreserved (bb : Board) (i j : Nat) :
    frozenPreserved bb (findCandidateAt bb i j).1 := by
  intro x y hf
  by_cases hxy : x = i ∧ y = j
  · obtain ⟨rfl, rfl⟩ := hxy
    unfold findCandidateAt
    rw [if_pos hf]
  · exact findCandidateAt_sq_ne bb i j x y hxy

theorem foldl_frozenPreserved {α : Type} (f : Board × Bool → α → Board × Bool)
    (hf : ∀ st a, frozenPreserved st.1 (f st a).1) (l : List α) :
    ∀ st, frozenPreserved st.1 (l.foldl f st).1 := by
  induction l with
  | nil => intro st; exact frozenPreserved_refl _
  | cons a t ih =>
    intro st
    exact frozenPreserved_trans (hf st a) (ih (f st a))

theorem findCandidates_frozenPreserved (b : Board) :
    frozenPreserved b (findCandidates b).1 :=
  foldl_frozenPreserved fcStep
    (fun st ij => findCandidateAt_frozenPreserved st.1 ij.1 ij.2)
    (cellList b.n2) (b, true)

theorem freezeOne_frozenPreserved (b : Board) (i j v : Nat)
    (h : (b.sq i j).frozen = false) : frozenPreserved b (freezeOne b i j v) := by
  intro x y hf
  unfold freezeOne
  apply setSq_sq_ne
  intro hc
  obtain ⟨rfl, rfl⟩ := hc
  rw [h] at hf
  cases hf

theorem checkOnlyOne_frozenPreserved (b : Board) :
    frozenPreserved b (checkOnlyOne b).1 := by
  unfold checkOnlyOne
  refine foldl_frozenPreserved _ ?_ _ (b, false)
  intro st ij
  dsimp only
  by_cases hc : (!(st.1.sq ij.1 ij.2).frozen &&
      (st.1.sq ij.1 ij.2).num_candidates == 1) = true
  · rw [if_pos hc]
    simp only [Bool.and_eq_true, Bool.not_eq_true'] at hc
    exact freezeOne_frozenPreserved _ _ _ _ hc.1
  · rw [if_neg hc]
    exact frozenPreserved_refl _

theorem rowCandCells_unfrozen {b : Board} {i k j0 : Nat}
    (h : j0 ∈ rowCandCells b i k) : (b.sq i j0).frozen = false := by
  unfold rowCandCells at h
  rcases List.mem_filter.mp h with ⟨_, hpred⟩
  simp only [Bool.and_eq_true, Bool.not_eq_true'] at hpred
  exact hpred.1

theorem colCandCells_unfrozen {b : Board} {i k j0 : Nat}
    (h : j0 ∈ colCandCells b i k) : (b.sq j0 i).frozen = false := by
  unfold colCandCells at h
  rcases List.mem_filter.mp h with ⟨_, hpred⟩
  simp only [Bool.and_eq_true, Bool.not_eq_true'] at hpred
  exact hpred.1

theorem subCandCells_unfrozen {b : Board} {sr sc k : Nat} {p : Nat × Nat}
    (h : p ∈ subCandCells b sr sc k) : (b.sq p.1 p.2).frozen = false := by
  unfold subCandCells at h
  rcases List.mem_filter.mp h with ⟨_, hpred⟩
  simp only [Bool.and_eq_true, Bool.not_eq_true'] at hpred
  exact hpred.1

theorem getLastD_mem_of_length_one {α : Type} {l : List α} {d : α}
    (h : l.length = 1) : l.getLastD d ∈ l := by
  rcases List.length_eq_one.mp h with ⟨a, rfl⟩
  exact List.mem_singleton.mpr rfl

theorem tryRowOptFrom_frozenPreserved (b : Board) :
    ∀ l : List Nat, frozenPreserved b (tryRowOptFrom b l).1 := by
  intro l
  induction l with
  | nil => exact frozenPreserved_refl _
  | cons i rest ih =>
    unfold tryRowOptFrom
    cases hf : (oneTo b.n2).find?
        (fun k => (rowCandCells b i k).length == 1) with
    | none => exact ih
    | some k =>
      dsimp only
      have hlen : (rowCandCells b i k).length = 1 := by
        have hpk := List.find?_some hf
        simpa using hpk
      exact freezeOne_frozenPreserved _ _ _ _
        (rowCandCells_unfrozen (getLastD_mem_of_length_one hlen))

theorem tryColOptFrom_frozenPreserved (b : Board) :
    ∀ l : List Nat, frozenPreserved b (tryColOptFrom b l).1 := by
  intro l
  induction l with
  | nil => exact frozenPreserved_refl _
  | cons i rest ih =>
    unfold tryColOptFrom
    cases hf : (oneTo b.n2).find?
        (fun k => (colCandCells b i k).length == 1) with
    | none => exact ih
    | some k =>
      dsimp only
      have hlen : (colCandCells b i k).length = 1 := by
        have hpk := List.find?_some hf
        simpa using hpk
      exact freezeOne_frozenPreserved _ _ _ _
        (colCandCells_unfrozen (getLastD_mem_of_length_one hlen))

theorem trySubOptFrom_frozenPreserved (b : Board) :
    ∀ l : List (Nat × Nat), frozenPreserved b (trySubOptFrom b l).1 := by
  intro l
  induction l with
  | nil => exact frozenPreserved_refl _
  | cons sq0 rest ih =>
    unfold trySubOptFrom
    cases hf : (oneTo b.n2).find?
        (fun k => (subCandCells b sq0.1 sq0.2 k).length == 1) with
    | none => exact ih
    | some k =>
      dsimp only
      have hlen : (subCandCells b sq0.1 sq0.2 k).length = 1 := by
        have hpk := List.find?_some hf
        simpa using hpk
      exact freezeOne_frozenPreserved _ _ _ _
        (subCandCells_unfrozen (getLastD_mem_of_length_one hlen))

set_option maxHeartbeats 1000000 in
theorem preprocessLoop_frozenPreserved :
    ∀ (fuel : Nat) (b b' : Board) (s : Bool),
      preprocessLoop fuel b = some (b', s) → frozenPreserved b b' := by
  intro fuel
  induction fuel with
  | zero =>
    intro b b' s h
    cases h
  | succ f ih =>
    intro b b' s h
    simp only [preprocessLoop] at h
    have hp0 : frozenPreserved b (findCandidates b).1 :=
      findCandidates_frozenPreserved b
    have hp1 : frozenPreserved b (checkOnlyOne (findCandidates b).1).1 :=
      frozenPreserved_trans hp0 (checkOnlyOne_frozenPreserved _)
    have hp2 : frozenPreserved b
        (tryRowOpt (checkOnlyOne (findCandidates b).1).1).1 :=
      frozenPreserved_trans hp1 (tryRowOptFrom_frozenPreserved _ _)
    have hp3 : frozenPreserved b
        (tryColOpt (tryRowOpt (checkOnlyOne (findCandidates b).1).1).1).1 :=
      frozenPreserved_trans hp2 (tryColOptFrom_frozenPreserved _ _)
    have hp4 : frozenPreserved b
        (trySubOpt (tryColOpt (tryRowOpt
          (checkOnlyOne (findCandidates b).1).1).1).1).1 :=
      frozenPreserved_trans hp3 (trySubOptFrom_frozenPreserved _ _)
    split at h
    · rw [Option.some_inj, Prod.mk.injEq] at h
      exact h.1 ▸ hp0
    · split at h
      · exact frozenPreserved_trans hp1 (ih _ _ _ h)
      · split at h
        · exact frozenPreserved_trans hp2 (ih _ _ _ h)
        · split at h
          · exact frozenPreserved_trans hp3 (ih _ _ _ h)
          · split at h
            · exact frozenPreserved_trans hp4 (ih _ _ _ h)
            · rw [Option.some_inj, Prod.mk.injEq] at h
              exact h.1 ▸ hp4

theorem foldl_updCell_frozen_sq (g : Square → Square)
    (l : List (Nat × Nat)) :
    ∀ (bb : Board) (x y : Nat), (bb.sq x y).frozen = true →
      (l.foldl (updCell g) bb).sq x y = bb.sq x y := by
  induction l with
  | nil => intro bb x y _; rfl
  | cons p t ih =>
    intro bb x y hf
    rw [List.foldl_cons]
    have hstep : (updCell g bb p).sq x y = bb.sq x y := by
      unfold updCell
      by_cases hfr : (bb.sq p.1 p.2).frozen = true
      · rw [if_pos hfr]
      · rw [if_neg hfr]
        apply setSq_sq_ne
        intro hc
        obtain ⟨rfl, rfl⟩ := hc
        exact hfr hf
    have hf2 : ((updCell g bb p).sq x y).frozen = true := by
      rw [hstep]; exact hf
    rw [ih (updCell g bb p) x y hf2, hstep]

/-- `update_neighbors` never touches a frozen square (it skips frozen
neighbors, and the origin square of the call is not its own neighbor). -/
theorem updateNeighbors_frozen_sq (b : Board) (row col piece : Nat)
    (ma : Bool) (x y : Nat) (hf : (b.sq x y).frozen = true) :
    (updateNeighbors b row col piece ma).sq x y = b.sq x y := by
  rw [updateNeighbors_eq_foldl]
  exact foldl_updCell_frozen_sq _ _ b x y hf

/-- A non-exiting step of `find_solution` never touches a frozen square and
keeps every stacked cell unfrozen (the stack only receives cells taken from
the `!p->frozen` branch). -/
theorem searchStep_inl_frozen (s s' : SState)
    (hstk : ∀ p ∈ s.stack, (s.b.sq p.1 p.2).frozen = false)
    (h : searchStep s = Sum.inl s') :
    frozenPreserved s.b s'.b ∧
      ∀ p ∈ s'.stack, (s'.b.sq p.1 p.2).frozen = false := by
  obtain ⟨b, i, j, stack, piece⟩ := s
  simp only [searchStep] at h
  dsimp only at hstk ⊢
  by_cases h1 : i > b.n2
  · rw [if_pos h1] at h; exact Sum.noConfusion h
  rw [if_neg h1] at h
  by_cases h2 : j > b.n2
  · rw [if_pos h2] at h
    injection h with h'
    subst h'
    exact ⟨frozenPreserved_refl _, hstk⟩
  rw [if_neg h2] at h
  by_cases h3 : (b.sq i j).frozen = true
  · rw [if_pos h3] at h
    injection h with h'
    subst h'
    exact ⟨frozenPreserved_refl _, hstk⟩
  rw [if_neg h3] at h
  cases hfp : findPiece b i j piece with
  | some k =>
    rw [hfp] at h
    dsimp only at h
    by_cases h4 : stack.length ≥ b.n2 * b.n2
    · rw [if_pos h4] at h; exact Sum.noConfusion h
    rw [if_neg h4] at h
    injection h with h'
    subst h'
    dsimp only
    have hb1flag : ∀ x y,
        ((b.setSq i j { b.sq i j with cur_value := k }).sq x y).frozen =
          (b.sq x y).frozen := by
      intro x y
      by_cases hxy : x = i ∧ y = j
      · obtain ⟨rfl, rfl⟩ := hxy
        rw [setSq_sq_self]
      · rw [setSq_sq_ne _ _ _ _ _ _ hxy]
    have hflag : ∀ x y,
        ((updateNeighbors (b.setSq i j { b.sq i j with cur_value := k })
            i j k false).sq x y).frozen = (b.sq x y).frozen := by
      intro x y
      rw [(updateNeighbors_fields _ i j k false x y).2.1, hb1flag]
    constructor
    · intro x y hf
      have hne : ¬(x = i ∧ y = j) := by
        intro hc
        obtain ⟨rfl, rfl⟩ := hc
        exact h3 hf
      have hb1 : (b.setSq i j { b.sq i j with cur_value := k }).sq x y =
          b.sq x y := setSq_sq_ne _ _ _ _ _ _ hne
      rw [updateNeighbors_frozen_sq _ i j k false x y (by rw [hb1]; exact hf),
        hb1]
    · intro p hp
      rw [hflag p.1 p.2]
      rcases List.mem_cons.mp hp with hp1 | hp2
      · subst hp1
        exact Bool.not_eq_true _ ▸ h3
      · exact hstk p hp2
  | none =>
    rw [hfp] at h
    cases stack with
    | nil => exact Sum.noConfusion h
    | cons hd rest =>
      obtain ⟨i', j'⟩ := hd
      dsimp only at h
      injection h with h'
      subst h'
      dsimp only
      have hhd : (b.sq i' j').frozen = false :=
        hstk (i', j') (List.mem_cons_self _ _)
      have hb1flag : ∀ x y,
          ((updateNeighbors b i' j' (b.sq i' j').cur_value true).sq x y).frozen
            = (b.sq x y).frozen := by
        intro x y
        exact (updateNeighbors_fields b i' j' _ true x y).2.1
      have hflag : ∀ x y,
          (((updateNeighbors b i' j' (b.sq i' j').cur_value true).setSq i' j'
            { (updateNeighbors b i' j' (b.sq i' j').cur_value true).sq i' j'
                with cur_value := 0 }).sq x y).frozen = (b.sq x y).frozen := by
        intro x y
        by_cases hxy : x = i' ∧ y = j'
        · obtain ⟨rfl, rfl⟩ := hxy
          rw [setSq_sq_self]
          exact hb1flag x y
        · rw [setSq_sq_ne _ _ _ _ _ _ hxy]
          exact hb1flag x y
      constructor
      · intro x y hf
        have hne : ¬(x = i' ∧ y = j') := by
          intro hc
          obtain ⟨rfl, rfl⟩ := hc
          rw [hhd] at hf
          cases hf
        rw [setSq_sq_ne _ _ _ _ _ _ hne]
        exact updateNeighbors_frozen_sq b i' j' _ true x y hf
      · intro p hp
        rw [hflag p.1 p.2]
        exact hstk p (List.mem_cons_of_mem _ hp)

/-- When `find_solution` exits normally, the board is returned unchanged by
the exit test and the row cursor has passed the last row. -/
theorem searchStep_done_board (s : SState) (b2 : Board)
    (h : searchStep s = Sum.inr (SearchOut.done b2)) :
    b2 = s.b ∧ s.b.n2 < s.i := by
  obtain ⟨b, i, j, stack, piece⟩ := s
  simp only [searchStep] at h
  dsimp only
  by_cases h1 : i > b.n2
  · rw [if_pos h1] at h
    injection h with h'
    injection h' with h''
    exact ⟨h''.symm, h1⟩
  rw [if_neg h1] at h
  by_cases h2 : j > b.n2
  · rw [if_pos h2] at h; exact Sum.noConfusion h
  rw [if_neg h2] at h
  by_cases h3 : (b.sq i j).frozen = true
  · rw [if_pos h3] at h; exact Sum.noConfusion h
  rw [if_neg h3] at h
  cases hfp : findPiece b i j piece with
  | some k =>
    rw [hfp] at h
    dsimp only at h
    by_cases h4 : stack.length ≥ b.n2 * b.n2
    · rw [if_pos h4] at h
      injection h with h'
      exact SearchOut.noConfusion h'
    · rw [if_neg h4] at h
      exact Sum.noConfusion h
  | none =>
    rw [hfp] at h
    cases stack with
    | nil =>
      injection h with h'
      exact SearchOut.noConfusion h'
    | cons hd rest =>
      obtain ⟨i', j'⟩ := hd
      dsimp only at h
      exact Sum.noConfusion h

theorem runSearch_done_frozenPreserved :
    ∀ (fuel : Nat) (s : SState) (b2 : Board),
      (∀ p ∈ s.stack, (s.b.sq p.1 p.2).frozen = false) →
      runSearch fuel s = some (SearchOut.done b2) →
      frozenPreserved s.b b2 := by
  intro fuel
  induction fuel with
  | zero => intro s b2 _ h; cases h
  | succ f ih =>
    intro s b2 hstk h
    simp only [runSearch] at h
    cases hstep : searchStep s with
    | inl s' =>
      rw [hstep] at h
      obtain ⟨hfp, hstk'⟩ := searchStep_inl_frozen s s' hstk hstep
      exact frozenPreserved_trans hfp (ih s' b2 hstk' h)
    | inr out =>
      rw [hstep] at h
      have hout : out = SearchOut.done b2 := by
        injection h
      subst hout
      obtain ⟨rfl, _⟩ := searchStep_done_board s b2 hstep
      exact frozenPreserved_refl _

theorem findSolution_done_frozenPreserved (fuel : Nat) (b bout : Board)
    (h : findSolution fuel b = some (SearchOut.done bout)) :
    frozenPreserved b bout :=
  runSearch_done_frozenPreserved fuel ⟨b, 1, 1, [], 0⟩ bout
    (fun p hp => absurd hp (List.not_mem_nil p)) h

/-- `load_file` freezes every clue it places, so a loaded board has
`cur_value ≠ 0 → frozen` everywhere. -/
theorem boardOfClues_load_inv (n : Nat) (clue : Nat → Nat → Nat) :
    ∀ i j, ((boardOfClues n clue).sq i j).cur_value ≠ 0 →
      ((boardOfClues n clue).sq i j).frozen = true := by
  intro i j h
  unfold boardOfClues at h ⊢
  dsimp only at h ⊢
  by_cases hc : 1 ≤ i ∧ i ≤ n * n ∧ 1 ≤ j ∧ j ≤ n * n ∧ clue i j ≠ 0
  · rw [if_pos hc]
  · rw [if_neg hc] at h
    exact absurd rfl h

/-- C4: the full `main` pipeline — `preprocess_board` followed by a normal
termination of `find_solution` — leaves every square that was frozen at
load time completely untouched (value, frozen flag and candidate stack),
and therefore `verify_solution_to_our_problem` accepts the final board:
every clue retains exactly its loaded value. -/
theorem c4_clue_preservation (fuel1 fuel2 : Nat) (b0 b1 bout : Board)
    (s : Bool)
    (hload : ∀ i j, (b0.sq i j).cur_value ≠ 0 → (b0.sq i j).frozen = true)
    (hpre : preprocessLoop fuel1 b0 = some (b1, s))
    (hsearch : findSolution fuel2 b1 = some (SearchOut.done bout)) :
    (∀ i j, (b0.sq i j).frozen = true → bout.sq i j = b0.sq i j) ∧
    verifyToOurProblem b0 bout = true := by
  have hfp : frozenPreserved b0 bout :=
    frozenPreserved_trans (preprocessLoop_frozenPreserved fuel1 b0 b1 s hpre)
      (findSolution_done_frozenPreserved fuel2 b1 bout hsearch)
  refine ⟨hfp, ?_⟩
  unfold verifyToOurProblem
  rw [List.all_eq_true]
  intro p hp
  simp only [Bool.or_eq_true, beq_iff_eq]
  by_cases hz : (b0.sq p.1 p.2).cur_value = 0
  · exact Or.inl hz
  · refine Or.inr ?_
    rw [hfp p.1 p.2 (hload p.1 p.2 hz)]

/-- The complete grid `s9` given as 81 clues. -/
def c4wBase : Board := boardOfClues 3 s9

def c4wPre : Board := ((preprocessLoop 5 c4wBase).getD (c4wBase, false)).1

def c4wOut : Board :=
  match findSolution 200 c4wPre with
  | some (SearchOut.done b) => b
  | _ => c4wPre

set_option maxRecDepth 1000000 in
theorem c4_clue_preservation_witness :
    (∀ i j, (c4wBase.sq i j).frozen = true → c4wOut.sq i j = c4wBase.sq i j) ∧
    verifyToOurProblem c4wBase c4wOut = true :=
  c4_clue_preservation 5 200 c4wBase c4wPre c4wOut true
    (boardOfClues_load_inv 3 s9) (by rfl) (by rfl)

/-! ### The search never exits without a full assignment (c5) -/

/-- Strict row-major scan order on cells, the order of `find_solution`'s
double loop. -/
def scanLt (p q : Nat × Nat) : Prop :=
  p.1 < q.1 ∨ (p.1 = q.1 ∧ p.2 < q.2)

/-- The loop invariant of `find_solution`: every in-range cell strictly
before the cursor is frozen or carries a placed value, every stacked cell
lies strictly before the cursor, and the stack is strictly decreasing in
scan order (top first). -/
def searchInv (s : SState) : Prop :=
  (∀ x y, 1 ≤ x → x ≤ s.b.n2 → 1 ≤ y → y ≤ s.b.n2 →
      scanLt (x, y) (s.i, s.j) →
      (s.b.sq x y).frozen = true ∨ (s.b.sq x y).cur_value ≠ 0) ∧
  (∀ p ∈ s.stack, scanLt p (s.i, s.j)) ∧
  List.Pairwise (fun a c => scanLt c a) s.stack

theorem findPiece_some_pos {b : Board} {i j piece k : Nat}
    (h : findPiece b i j piece = some k) : 1 ≤ k := by
  unfold findPiece at h
  have hm := List.mem_of_find?_eq_some h
  rcases List.mem_filter.mp hm with ⟨hm2, _⟩
  exact (mem_oneTo.mp hm2).1

theorem searchStep_inl_inv (s s' : SState)
    (hinv : searchInv s) (h : searchStep s = Sum.inl s') :
    searchInv s' ∧ s'.b.n = s.b.n := by
  obtain ⟨hpre, hstk, hpw⟩ := hinv
  obtain ⟨b, i, j, stack, piece⟩ := s
  simp only [searchStep] at h
  dsimp only at hpre hstk hpw ⊢
  by_cases h1 : i > b.n2
  · rw [if_pos h1] at h; exact Sum.noConfusion h
  rw [if_neg h1] at h
  by_cases h2 : j > b.n2
  · rw [if_pos h2] at h
    injection h with h'
    subst h'
    refine ⟨⟨?_, ?_, hpw⟩, rfl⟩
    · intro x y hx1 hx2 hy1 hy2 hlt
      apply hpre x y hx1 hx2 hy1 hy2
      unfold scanLt at hlt ⊢
      dsimp only at hlt hy2 hx2 ⊢
      omega
    · intro p hp
      have hp2 := hstk p hp
      unfold scanLt at hp2 ⊢
      dsimp only at hp2 ⊢
      omega
  rw [if_neg h2] at h
  by_cases h3 : (b.sq i j).frozen = true
  · rw [if_pos h3] at h
    injection h with h'
    subst h'
    refine ⟨⟨?_, ?_, hpw⟩, rfl⟩
    · intro x y hx1 hx2 hy1 hy2 hlt
      by_cases hxy : x = i ∧ y = j
      · obtain ⟨rfl, rfl⟩ := hxy
        exact Or.inl h3
      · apply hpre x y hx1 hx2 hy1 hy2
        unfold scanLt at hlt ⊢
        dsimp only at hlt ⊢
        omega
    · intro p hp
      have hp2 := hstk p hp
      unfold scanLt at hp2 ⊢
      dsimp only at hp2 ⊢
      omega
  rw [if_neg h3] at h
  cases hfp : findPiece b i j piece with
  | some k =>
    rw [hfp] at h
    dsimp only at h
    by_cases h4 : stack.length ≥ b.n2 * b.n2
    · rw [if_pos h4] at h; exact Sum.noConfusion h
    rw [if_neg h4] at h
    injection h with h'
    subst h'
    dsimp only
    have hk : 1 ≤ k := findPiece_some_pos hfp
    have hn : (updateNeighbors (b.setSq i j { b.sq i j with cur_value := k })
        i j k false).n = b.n := by
      rw [updateNeighbors_n, setSq_n]
    have hn2 : (updateNeighbors (b.setSq i j { b.sq i j with cur_value := k })
        i j k false).n2 = b.n2 := by
      unfold Board.n2
      rw [hn]
    have hflag : ∀ x y,
        ((updateNeighbors (b.setSq i j { b.sq i j with cur_value := k })
            i j k false).sq x y).frozen = (b.sq x y).frozen := by
      intro x y
      rw [(updateNeighbors_fields _ i j k false x y).2.1]
      by_cases hxy : x = i ∧ y = j
      · obtain ⟨rfl, rfl⟩ := hxy
        rw [setSq_sq_self]
      · rw [setSq_sq_ne _ _ _ _ _ _ hxy]
    have hvne : ∀ x y, ¬(x = i ∧ y = j) →
        ((updateNeighbors (b.setSq i j { b.sq i j with cur_value := k })
            i j k false).sq x y).cur_value = (b.sq x y).cur_value := by
      intro x y hxy
      rw [(updateNeighbors_fields _ i j k false x y).1,
        setSq_sq_ne _ _ _ _ _ _ hxy]
    have hvij :
        ((updateNeighbors (b.setSq i j { b.sq i j with cur_value := k })
            i j k false).sq i j).cur_value = k := by
      rw [(updateNeighbors_fields _ i j k false i j).1, setSq_sq_self]
    refine ⟨⟨?_, ?_, ?_⟩, hn⟩
    · intro x y hx1 hx2 hy1 hy2 hlt
      rw [hn2] at hx2 hy2
      by_cases hxy : x = i ∧ y = j
      · obtain ⟨rfl, rfl⟩ := hxy
        refine Or.inr ?_
        rw [hvij]
        omega
      · rw [hflag, hvne x y hxy]
        apply hpre x y hx1 hx2 hy1 hy2
        unfold scanLt at hlt ⊢
        dsimp only at hlt ⊢
        omega
    · intro p hp
      rcases List.mem_cons.mp hp with hp1 | hp1
      · subst hp1
        unfold scanLt
        dsimp only
        omega
      · have hp2 := hstk p hp1
        unfold scanLt at hp2 ⊢
        dsimp only at hp2 ⊢
        omega
    · refine List.pairwise_cons.mpr ⟨?_, hpw⟩
      intro p hp
      have hp2 := hstk p hp
      exact hp2
  | none =>
    rw [hfp] at h
    cases stack with
    | nil => exact Sum.noConfusion h
    | cons hd rest =>
      obtain ⟨i', j'⟩ := hd
      dsimp only at h
      injection h with h'
      subst h'
      dsimp only
      have hhead : scanLt (i', j') (i, j) :=
        hstk (i', j') (List.mem_cons_self _ _)
      have hn : ((updateNeighbors b i' j' (b.sq i' j').cur_value true).setSq
          i' j' { (updateNeighbors b i' j' (b.sq i' j').cur_value true).sq
            i' j' with cur_value := 0 }).n = b.n := by
        rw [setSq_n, updateNeighbors_n]
      have hn2 : ((updateNeighbors b i' j' (b.sq i' j').cur_value true).setSq
          i' j' { (updateNeighbors b i' j' (b.sq i' j').cur_value true).sq
            i' j' with cur_value := 0 }).n2 = b.n2 := by
        unfold Board.n2
        rw [hn]
      have hflag : ∀ x y,
          (((updateNeighbors b i' j' (b.sq i' j').cur_value true).setSq
            i' j' { (updateNeighbors b i' j' (b.sq i' j').cur_value true).sq
              i' j' with cur_value := 0 }).sq x y).frozen =
            (b.sq x y).frozen := by
        intro x y
        by_cases hxy : x = i' ∧ y = j'
        · obtain ⟨rfl, rfl⟩ := hxy
          rw [setSq_sq_self]
          exact (updateNeighbors_fields b _ _ _ true x y).2.1
        · rw [setSq_sq_ne _ _ _ _ _ _ hxy]
          exact (updateNeighbors_fields b _ _ _ true x y).2.1
      have hvne : ∀ x y, ¬(x = i' ∧ y = j') →
          (((updateNeighbors b i' j' (b.sq i' j').cur_value true).setSq
            i' j' { (updateNeighbors b i' j' (b.sq i' j').cur_value true).sq
              i' j' with cur_value := 0 }).sq x y).cur_value =
            (b.sq x y).cur_value := by
        intro x y hxy
        rw [setSq_sq_ne _ _ _ _ _ _ hxy]
        exact (updateNeighbors_fields b i' j' _ true x y).1
      refine ⟨⟨?_, ?_, ?_⟩, hn⟩
      · intro x y hx1 hx2 hy1 hy2 hlt
        rw [hn2] at hx2 hy2
        have hxy : ¬(x = i' ∧ y = j') := by
          unfold scanLt at hlt
          dsimp only at hlt
          omega
        rw [hflag, hvne x y hxy]
        apply hpre x y hx1 hx2 hy1 hy2
        unfold scanLt at hlt hhead ⊢
        dsimp only at hlt hhead ⊢
        omega
      · intro p hp
        have hp2 := (List.pairwise_cons.mp hpw).1 p hp
        exact hp2
      · exact (List.pairwise_cons.mp hpw).2

/-- A normal exit of the search loop with the invariant in force leaves
every in-range square frozen or assigned. -/
theorem searchStep_done_full (s : SState) (b2 : Board)
    (hinv : searchInv s) (h : searchStep s = Sum.inr (SearchOut.done b2)) :
    ∀ x y, 1 ≤ x → x ≤ s.b.n2 → 1 ≤ y → y ≤ s.b.n2 →
      (b2.sq x y).frozen = true ∨ (b2.sq x y).cur_value ≠ 0 := by
  obtain ⟨rfl, hlt⟩ := searchStep_done_board s b2 h
  intro x y hx1 hx2 hy1 hy2
  exact hinv.1 x y hx1 hx2 hy1 hy2 (Or.inl (Nat.lt_of_le_of_lt hx2 hlt))

theorem runSearch_done_full :
    ∀ (fuel : Nat) (s : SState) (b2 : Board),
      searchInv s → runSearch fuel s = some (SearchOut.done b2) →
      ∀ x y, 1 ≤ x → x ≤ s.b.n2 → 1 ≤ y → y ≤ s.b.n2 →
        (b2.sq x y).frozen = true ∨ (b2.sq x y).cur_value ≠ 0 := by
  intro fuel
  induction fuel with
  | zero => intro s b2 _ h; cases h
  | succ f ih =>
    intro s b2 hinv h
    simp only [runSearch] at h
    cases hstep : searchStep s with
    | inl s' =>
      rw [hstep] at h
      obtain ⟨hinv', hn⟩ := searchStep_inl_inv s s' hinv hstep
      intro x y hx1 hx2 hy1 hy2
      have hn2 : s'.b.n2 = s.b.n2 := by
        unfold Board.n2
        rw [hn]
      exact ih s' b2 hinv' h x y hx1 (by omega) hy1 (by omega)
    | inr out =>
      rw [hstep] at h
      have hout : out = SearchOut.done b2 := by injection h
      subst hout
      exact searchStep_done_full s b2 hinv hstep

theorem searchInv_init (b : Board) : searchInv ⟨b, 1, 1, [], 0⟩ := by
  unfold searchInv scanLt
  dsimp only
  refine ⟨?_, ?_, List.Pairwise.nil⟩
  · intro x y hx1 _ hy1 _ hlt
    omega
  · intro p hp
    cases hp

/-- C5: a dead end (`findPiece` finds no candidate above the resume
threshold) at an unfrozen in-range cell with an empty move stack makes
`find_solution` abort (the C `assert(top_of_stack >= 0)` fires); and
whenever `find_solution` does terminate normally, every in-range square of
the returned board is frozen or holds a placed (nonzero) value — there is
no non-fatal exit without a full assignment. -/
theorem c5_dead_end_empty_stack_aborts :
    (∀ s : SState, s.i ≤ s.b.n2 → s.j ≤ s.b.n2 →
        (s.b.sq s.i s.j).frozen = false →
        findPiece s.b s.i s.j s.piece = none → s.stack = [] →
        searchStep s = Sum.inr SearchOut.abort) ∧
    (∀ (fuel : Nat) (b bout : Board),
        findSolution fuel b = some (SearchOut.done bout) →
        ∀ x y, 1 ≤ x → x ≤ b.n2 → 1 ≤ y → y ≤ b.n2 →
          (bout.sq x y).frozen = true ∨ (bout.sq x y).cur_value ≠ 0) := by
  constructor
  · intro s hi hj hf hfp hstk
    obtain ⟨b, i, j, stack, piece⟩ := s
    dsimp only at hi hj hf hfp hstk ⊢
    subst hstk
    simp only [searchStep]
    rw [if_neg (Nat.not_lt.mpr hi), if_neg (Nat.not_lt.mpr hj),
      if_neg (by rw [hf]; exact Bool.false_ne_true), hfp]
  · intro fuel b bout h x y hx1 hx2 hy1 hy2
    exact runSearch_done_full fuel ⟨b, 1, 1, [], 0⟩ bout (searchInv_init b)
      h x y hx1 hx2 hy1 hy2

/-- An empty 9×9 board: every cell unfrozen with an empty candidate stack,
so `findPiece` sees mask 0 at `(1, 1)` — a dead end with an empty move
stack. -/
def c5DeadState : SState := ⟨boardOfClues 3 (fun _ _ => 0), 1, 1, [], 0⟩

/-- The complete grid `s9` given as 81 clues, for a normally terminating
search. -/
def c5wBase : Board := boardOfClues 3 s9

def c5wOut : Board :=
  match findSolution 200 c5wBase with
  | some (SearchOut.done b) => b
  | _ => c5wBase

set_option maxRecDepth 1000000 in
theorem c5_dead_end_empty_stack_aborts_witness :
    searchStep c5DeadState = Sum.inr SearchOut.abort ∧
    ((c5wOut.sq 1 1).frozen = true ∨ (c5wOut.sq 1 1).cur_value ≠ 0) :=
  ⟨c5_dead_end_empty_stack_aborts.1 c5DeadState (by decide) (by decide)
      (by decide) (by decide) rfl,
    c5_dead_end_empty_stack_aborts.2 200 c5wBase c5wOut (by rfl)
      1 1 (by decide) (by decide) (by decide) (by decide)⟩

/-! ### The loader (sudoku.c: `get_line`, `load_file`) — c8, c9.

A file is a list of lines, each a list of characters (without the line
terminator `fgets` keeps and the trim loop removes).  `exit(1)` paths are
`none`.  `init_board (G, n)` calls made while scanning for `//N=d` are
recorded in a trace list `inits` alongside the current subsquare size. -/

/-- C `isspace` on the characters that can occur in a text line. -/
def isspace (c : Char) : Bool :=
  c = ' ' || c = '\t' || c = '\n' || c = '\x0b' || c = '\x0c' || c = '\r'

def atoiDigits : List Char → Nat → Nat
  | [], acc => acc
  | c :: cs, acc =>
    if c.isDigit then atoiDigits cs (acc * 10 + (c.toNat - 48)) else acc

/-- C `atoi`: skip whitespace, optional sign, then a digit prefix (0 when
no digit follows). -/
def atoi (s : List Char) : Int :=
  match s.dropWhile isspace with
  | '-' :: rest => -(atoiDigits rest 0 : Int)
  | '+' :: rest => (atoiDigits rest 0 : Int)
  | s1 => (atoiDigits s1 0 : Int)

/-- `get_line`'s trailing-whitespace trim loop. -/
def trimRight (l : List Char) : List Char :=
  (l.reverse.dropWhile isspace).reverse

/-- `get_line` (sudoku.c): keep reading lines until a non-comment,
non-blank line is found; return it trimmed together with the remaining
lines.  While `allowN` holds, every line `//N=d` with `3 ≤ d ≤ MAX_N = 6`
reinitializes the board (`init_board (G, d)`, recorded in the trace) and
scanning continues; an out-of-range value after `//N=` is fatal (`none`),
as is end of file. -/
def getLine (allowN : Bool) :
    Nat → List Nat → List (List Char) →
      Option (Nat × List Nat × List Char × List (List Char))
  | _, _, [] => none
  | n, inits, line :: rest =>
    if line.take 2 = ['/', '/'] then
      if allowN = false then getLine allowN n inits rest
      else if (line.drop 2).take 2 = ['N', '='] then
        if 3 ≤ atoi (line.drop 4) ∧ atoi (line.drop 4) ≤ 6 then
          getLine allowN (atoi (line.drop 4)).toNat
            (inits ++ [(atoi (line.drop 4)).toNat]) rest
        else none
      else getLine allowN n inits rest
    else
      if trimRight line = [] then getLine allowN n inits rest
      else some (n, inits, trimRight line, rest)

/-- `load_file`'s inner `j`-loop, reading the given number of squares from
a trimmed line: skip whitespace, then `-` is a blank (value 0) and any
other character goes through `map_alphabet_to_int`, fatally (`none`) when
it maps to -1 or above N².  Characters after the last square are never
looked at.  At the end of the line the C code reads the terminating NUL,
which is not whitespace, not `-`, and maps to -1 — fatal. -/
def parseCells (n2 : Nat) : Nat → List Char → Option (List Nat)
  | 0, _ => some []
  | j + 1, cs =>
    match cs.dropWhile isspace with
    | [] => none
    | c :: rest =>
      if c = '-' then (parseCells n2 j rest).map (fun vs => 0 :: vs)
      else if map_alphabet_to_int c = -1 ∨ map_alphabet_to_int c > (n2 : Int)
      then none
      else (parseCells n2 j rest).map
        (fun vs => (map_alphabet_to_int c).toNat :: vs)

/-- The rows of `load_file` after the first (`allowN` already false). -/
def loadRows : Nat → Nat → List Nat → List (List Char) →
    Option (List (List Nat))
  | 0, _, _, _ => some []
  | cnt + 1, n, inits, ls =>
    match getLine false n inits ls with
    | none => none
    | some (n1, inits1, line, rest) =>
      match parseCells (n1 * n1) (n1 * n1) line with
      | none => none
      | some vs => (loadRows cnt n1 inits1 rest).map (fun rows => vs :: rows)

/-- `load_file` (sudoku.c): the first row is read with `allowN = true`
(directives may still change N there), every later row with
`allowN = false`; N² rows of N² squares each are read and anything left in
the file is never touched.  Returns the final subsquare size, the
`init_board` trace and the parsed rows (0 = blank, nonzero = frozen clue,
matching `boardOfClues`). -/
def loadFile (n0 : Nat) (ls : List (List Char)) :
    Option (Nat × List Nat × List (List Nat)) :=
  match getLine true n0 [] ls with
  | none => none
  | some (n1, inits1, line, rest) =>
    match parseCells (n1 * n1) (n1 * n1) line with
    | none => none
    | some vs =>
      (loadRows (n1 * n1 - 1) n1 inits1 rest).map
        (fun rows => (n1, inits1, vs :: rows))

theorem dropWhile_head_false {α : Type} {p : α → Bool} :
    ∀ (cs : List α) (c : α) (rest : List α),
      cs.dropWhile p = c :: rest → p c = false := by
  intro cs
  induction cs with
  | nil => intro c rest h; cases h
  | cons a t ih =>
    intro c rest h
    rw [List.dropWhile_cons] at h
    by_cases hp : p a = true
    · rw [if_pos hp] at h
      exact ih c rest h
    · rw [if_neg hp] at h
      injection h with h1 _
      subst h1
      exact Bool.not_eq_true _ ▸ hp

theorem dropWhile_append_of_cons {α : Type} {p : α → Bool} :
    ∀ (cs : List α) (c : α) (rest ex : List α),
      cs.dropWhile p = c :: rest →
      (cs ++ ex).dropWhile p = c :: (rest ++ ex) := by
  intro cs
  induction cs with
  | nil => intro c rest ex h; cases h
  | cons a t ih =>
    intro c rest ex h
    rw [List.dropWhile_cons] at h
    rw [List.cons_append, List.dropWhile_cons]
    by_cases hp : p a = true
    · rw [if_pos hp] at h
      rw [if_pos hp]
      exact ih c rest ex h
    · rw [if_neg hp] at h
      rw [if_neg hp]
      injection h with h1 h2
      subst h1
      rw [h2]

theorem filter_nonspace_dropWhile (cs : List Char) :
    (cs.dropWhile isspace).filter (fun c => !(isspace c)) =
      cs.filter (fun c => !(isspace c)) := by
  induction cs with
  | nil => rfl
  | cons a t ih =>
    rw [List.dropWhile_cons, List.filter_cons]
    by_cases hp : isspace a = true
    · rw [if_pos hp, ih, if_neg (by rw [hp]; exact Bool.false_ne_true)]
    · have hp2 : isspace a = false := Bool.not_eq_true _ ▸ hp
      rw [if_neg hp, if_pos (by rw [hp2]; rfl), List.filter_cons,
        if_pos (by rw [hp2]; rfl)]

/-- Fewer non-whitespace characters than squares to read forces
`parseCells` into the fatal NUL path. -/
theorem parseCells_short (n2 : Nat) :
    ∀ (m : Nat) (cs : List Char),
      (cs.filter (fun c => !(isspace c))).length < m →
      parseCells n2 m cs = none := by
  intro m
  induction m with
  | zero =>
    intro cs h
    exact absurd h (Nat.not_lt_zero _)
  | succ j ih =>
    intro cs h
    rw [← filter_nonspace_dropWhile] at h
    simp only [parseCells]
    cases hdw : cs.dropWhile isspace with
    | nil => rfl
    | cons c rest =>
      rw [hdw] at h
      have hc : isspace c = false := dropWhile_head_false cs c rest hdw
      rw [List.filter_cons, if_pos (by rw [hc]; rfl)] at h
      have hrest : (rest.filter (fun c => !(isspace c))).length < j := by
        rw [List.length_cons] at h
        omega
      have hrec : parseCells n2 j rest = none := ih rest hrest
      dsimp only
      by_cases hdash : c = '-'
      · rw [if_pos hdash, hrec]
        rfl
      · rw [if_neg hdash]
        by_cases hbad : map_alphabet_to_int c = -1 ∨
            map_alphabet_to_int c > (n2 : Int)
        · rw [if_pos hbad]
        · rw [if_neg hbad, hrec]
          rfl

/-- `parseCells` looks only at the prefix it consumes: appending more
characters to a line it accepts changes nothing. -/
theorem parseCells_append (n2 : Nat) :
    ∀ (m : Nat) (cs extra : List Char) (vs : List Nat),
      parseCells n2 m cs = some vs →
      parseCells n2 m (cs ++ extra) = some vs := by
  intro m
  induction m with
  | zero =>
    intro cs extra vs h
    simp only [parseCells] at h ⊢
    exact h
  | succ j ih =>
    intro cs extra vs h
    simp only [parseCells] at h ⊢
    cases hdw : cs.dropWhile isspace with
    | nil => rw [hdw] at h; cases h
    | cons c rest =>
      rw [hdw] at h
      rw [dropWhile_append_of_cons cs c rest extra hdw]
      dsimp only at h ⊢
      by_cases hdash : c = '-'
      · rw [if_pos hdash] at h ⊢
        cases hrec : parseCells n2 j rest with
        | none => rw [hrec] at h; cases h
        | some vs0 =>
          rw [hrec] at h
          rw [ih rest extra vs0 hrec]
          exact h
      · rw [if_neg hdash] at h ⊢
        by_cases hbad : map_alphabet_to_int c = -1 ∨
            map_alphabet_to_int c > (n2 : Int)
        · rw [if_pos hbad] at h; cases h
        · rw [if_neg hbad] at h ⊢
          cases hrec : parseCells n2 j rest with
          | none => rw [hrec] at h; cases h
          | some vs0 =>
            rw [hrec] at h
            rw [ih rest extra vs0 hrec]
            exact h

theorem getLine_append (allowN : Bool) :
    ∀ (ls : List (List Char)) (n : Nat) (inits : List Nat)
      (out : Nat × List Nat × List Char × List (List Char))
      (ex : List (List Char)),
      getLine allowN n inits ls = some out →
      getLine allowN n inits (ls ++ ex) =
        some (out.1, out.2.1, out.2.2.1, out.2.2.2 ++ ex) := by
  intro ls
  induction ls with
  | nil => intro n inits out ex h; cases h
  | cons line t ih =>
    intro n inits out ex h
    simp only [getLine] at h
    rw [List.cons_append]
    simp only [getLine]
    by_cases h1 : line.take 2 = ['/', '/']
    · rw [if_pos h1] at h ⊢
      by_cases h2 : allowN = false
      · rw [if_pos h2] at h ⊢
        exact ih n inits out ex h
      · rw [if_neg h2] at h ⊢
        by_cases h3 : (line.drop 2).take 2 = ['N', '=']
        · rw [if_pos h3] at h ⊢
          by_cases h4 : 3 ≤ atoi (line.drop 4) ∧ atoi (line.drop 4) ≤ 6
          · rw [if_pos h4] at h ⊢
            exact ih _ _ out ex h
          · rw [if_neg h4] at h
            cases h
        · rw [if_neg h3] at h ⊢
          exact ih n inits out ex h
    · rw [if_neg h1] at h ⊢
      by_cases h2 : trimRight line = []
      · rw [if_pos h2] at h ⊢
        exact ih n inits out ex h
      · rw [if_neg h2] at h ⊢
        rw [Option.some_inj] at h
        rw [← h]

theorem loadRows_append :
    ∀ (cnt n : Nat) (inits : List Nat) (ls ex : List (List Char))
      (rows : List (List Nat)),
      loadRows cnt n inits ls = some rows →
      loadRows cnt n inits (ls ++ ex) = some rows := by
  intro cnt
  induction cnt with
  | zero =>
    intro n inits ls ex rows h
    simp only [loadRows] at h ⊢
    exact h
  | succ c ih =>
    intro n inits ls ex rows h
    simp only [loadRows] at h ⊢
    cases hgl : getLine false n inits ls with
    | none => rw [hgl] at h; cases h
    | some out =>
      obtain ⟨n1, inits1, line, rest⟩ := out
      rw [hgl] at h
      rw [getLine_append false ls n inits (n1, inits1, line, rest) ex hgl]
      dsimp only at h ⊢
      cases hpc : parseCells (n1 * n1) (n1 * n1) line with
      | none => rw [hpc] at h; cases h
      | some vs =>
        rw [hpc] at h
        dsimp only at h ⊢
        cases hlr : loadRows c n1 inits1 rest with
        | none => rw [hlr] at h; cases h
        | some rows0 =>
          rw [hlr] at h
          rw [ih n1 inits1 rest ex rows0 hlr]
          exact h

theorem loadFile_append (n0 : Nat) (ls ex : List (List Char))
    (r : Nat × List Nat × List (List Nat))
    (h : loadFile n0 ls = some r) : loadFile n0 (ls ++ ex) = some r := by
  unfold loadFile at h ⊢
  cases hgl : getLine true n0 [] ls with
  | none => rw [hgl] at h; cases h
  | some out =>
    obtain ⟨n1, inits1, line, rest⟩ := out
    rw [hgl] at h
    rw [getLine_append true ls n0 [] (n1, inits1, line, rest) ex hgl]
    dsimp only at h ⊢
    cases hpc : parseCells (n1 * n1) (n1 * n1) line with
    | none => rw [hpc] at h; cases h
    | some vs =>
      rw [hpc] at h
      dsimp only at h ⊢
      cases hlr : loadRows (n1 * n1 - 1) n1 inits1 rest with
      | none => rw [hlr] at h; cases h
      | some rows0 =>
        rw [hlr] at h
        rw [loadRows_append (n1 * n1 - 1) n1 inits1 rest ex rows0 hlr]
        exact h

/-- C9: at the loader boundary, (i) a data line with fewer non-whitespace
characters than the N² squares a row needs is a fatal format error — the
loop runs into the line terminator, which is not a valid square character;
(ii) characters beyond the N²-th square of an accepted line are ignored
(appending anything to the line changes nothing); (iii) file content after
the N²-th data line of an accepted file is ignored (appending lines
changes nothing). -/
theorem c9_loader_boundary :
    (∀ (n2 : Nat) (line : List Char),
        (line.filter (fun c => !(isspace c))).length < n2 →
        parseCells n2 n2 line = none) ∧
    (∀ (n2 m : Nat) (line extra : List Char) (vs : List Nat),
        parseCells n2 m line = some vs →
        parseCells n2 m (line ++ extra) = some vs) ∧
    (∀ (n0 : Nat) (ls extra : List (List Char))
        (r : Nat × List Nat × List (List Nat)),
        loadFile n0 ls = some r → loadFile n0 (ls ++ extra) = some r) ∧
    (∀ (n0 : Nat) (ls : List (List Char)) (n1 : Nat) (inits1 : List Nat)
        (line : List Char) (rest : List (List Char)),
        getLine true n0 [] ls = some (n1, inits1, line, rest) →
        parseCells (n1 * n1) (n1 * n1) line = none →
        loadFile n0 ls = none) := by
  refine ⟨fun n2 line h => parseCells_short n2 n2 line h,
    fun n2 m line extra vs h => parseCells_append n2 m line extra vs h,
    fun n0 ls extra r h => loadFile_append n0 ls extra r h, ?_⟩
  intro n0 ls n1 inits1 line rest hgl hpc
  unfold loadFile
  rw [hgl]
  dsimp only
  rw [hpc]

def c9wLines : List (List Char) := List.replicate 9 ("123456789".toList)

def c9wOut : Nat × List Nat × List (List Nat) :=
  (loadFile 3 c9wLines).getD (0, [], [])

theorem c9_loader_boundary_witness :
    parseCells 9 9 ("1234".toList) = none ∧
    parseCells 9 9 ("123456789".toList ++ ("xyz".toList)) =
      some [1, 2, 3, 4, 5, 6, 7, 8, 9] ∧
    loadFile 3 (c9wLines ++ [" trailing garbage".toList]) = some c9wOut ∧
    loadFile 3 ["1234".toList] = none :=
  ⟨c9_loader_boundary.1 9 ("1234".toList) (by decide),
   c9_loader_boundary.2.1 9 9 ("123456789".toList) ("xyz".toList)
     [1, 2, 3, 4, 5, 6, 7, 8, 9] (by decide),
   c9_loader_boundary.2.2.1 3 c9wLines [" trailing garbage".toList] c9wOut
     (by rfl),
   c9_loader_boundary.2.2.2 3 ["1234".toList] 3 [] ("1234".toList) []
     (by rfl) (by decide)⟩

/-- C8 (amended): while `allowN` still holds — i.e. until the first data
line has been consumed — EVERY line `//N=d` is processed, not just one:
each in-range directive reinitializes the board to subsquare size `d`
(appending `d` to the `init_board` trace) and scanning continues, so a
later directive overrides an earlier one; an out-of-range or non-numeric
`//N=` suffix is fatal.  Once the first data line has been consumed
(`allowN` false), `//N=` lines are skipped as ordinary comments with no
effect: the size and the trace pass through every later `get_line`
unchanged. -/
theorem c8_n_directive :
    (∀ (n d : Nat) (inits : List Nat) (line : List Char)
        (rest : List (List Char)),
        line.take 2 = ['/', '/'] → (line.drop 2).take 2 = ['N', '='] →
        atoi (line.drop 4) = (d : Int) → 3 ≤ d → d ≤ 6 →
        getLine true n inits (line :: rest) =
          getLine true d (inits ++ [d]) rest) ∧
    (∀ (n : Nat) (inits : List Nat) (line : List Char)
        (rest : List (List Char)),
        line.take 2 = ['/', '/'] → (line.drop 2).take 2 = ['N', '='] →
        ¬(3 ≤ atoi (line.drop 4) ∧ atoi (line.drop 4) ≤ 6) →
        getLine true n inits (line :: rest) = none) ∧
    (∀ (n : Nat) (inits : List Nat) (line : List Char)
        (rest : List (List Char)),
        line.take 2 = ['/', '/'] →
        getLine false n inits (line :: rest) = getLine false n inits rest) ∧
    (∀ (n : Nat) (inits : List Nat) (ls : List (List Char))
        (out : Nat × List Nat × List Char × List (List Char)),
        getLine false n inits ls = some out →
        out.1 = n ∧ out.2.1 = inits) := by
  refine ⟨?_, ?_, ?_, ?_⟩
  · intro n d inits line rest h1 h2 hd h3 h4
    have hc : (3 : Int) ≤ (d : Int) ∧ (d : Int) ≤ 6 :=
      ⟨by exact_mod_cast h3, by exact_mod_cast h4⟩
    rw [getLine.eq_def]
    dsimp only
    rw [if_pos h1, if_neg (by decide : ¬((true : Bool) = false)),
      if_pos h2, hd, if_pos hc, Int.toNat_natCast]
  · intro n inits line rest h1 h2 h3
    rw [getLine.eq_def]
    dsimp only
    rw [if_pos h1, if_neg (by decide : ¬((true : Bool) = false)),
      if_pos h2, if_neg h3]
  · intro n inits line rest h1
    rw [getLine.eq_def]
    dsimp only
    rw [if_pos h1, if_pos (rfl : (false : Bool) = false)]
  · intro n inits ls
    induction ls with
    | nil => intro out h; cases h
    | cons line t ih =>
      intro out h
      rw [getLine.eq_def] at h
      dsimp only at h
      by_cases h1 : line.take 2 = ['/', '/']
      · rw [if_pos h1, if_pos (rfl : (false : Bool) = false)] at h
        exact ih out h
      · rw [if_neg h1] at h
        by_cases h2 : trimRight line = []
        · rw [if_pos h2] at h
          exact ih out h
        · rw [if_neg h2, Option.some_inj] at h
          subst h
          exact ⟨rfl, rfl⟩

theorem c8_n_directive_witness :
    getLine true 3 [] ["//N=5".toList, "x".toList] =
      getLine true 5 [5] ["x".toList] ∧
    getLine true 3 [] ["//N=7".toList, "x".toList] = none ∧
    getLine false 3 [] ["//N=5".toList, "x".toList] =
      getLine false 3 [] ["x".toList] ∧
    (((3 : Nat), ([] : List Nat), "x".toList,
        ([] : List (List Char))).1 = 3 ∧
      ((3 : Nat), ([] : List Nat), "x".toList,
        ([] : List (List Char))).2.1 = []) :=
  ⟨c8_n_directive.1 3 5 [] ("//N=5".toList) ["x".toList] (by decide)
      (by decide) (by decide) (by decide) (by decide),
   c8_n_directive.2.1 3 [] ("//N=7".toList) ["x".toList] (by decide)
      (by decide) (by decide),
   c8_n_directive.2.2.1 3 [] ("//N=5".toList) ["x".toList] (by decide),
   c8_n_directive.2.2.2 3 [] ["x".toList]
      (3, [], "x".toList, []) (by rfl)⟩

/-- C8, the original wording refuted: with the file
`//N=4`, `//N=3`, then nine data rows, BOTH directives are honored before
the first data line — `init_board` runs twice (trace `[4, 3]`) and the
final size is the LAST directive's 3, not the first directive's 4.  The
directive is thus not "honored only once"; it is honored at every
occurrence before the first data line. -/
theorem c8_n_directive_cex :
    (loadFile 3 (["//N=4".toList, "//N=3".toList] ++ c9wLines)).map
        (fun r => (r.1, r.2.1)) = some (3, [4, 3]) ∧
    [4, 3] ≠ [4] := by
  refine ⟨by decide, by decide⟩

end Sudoku
